import Mathlib

/-!
Verification development for the tshistory_formula engine.

The development shallowly embeds the parts of the code base that the
statements below are about:

* the history reconstruction machinery of tsio.py (history,
  _complete_histories_start, _history_diffs, iter_revisions,
  insertion_dates, has_asof, find_series, register_dependents,
  dependents, register_formula's content hash) over a structured
  expression type Expr covering the series/add/asof/auto operator
  subset of the language;
* the parallel evaluator and its cached variant (evaluator.py) and the
  registration checks (register_formula, types.typecheck) over a
  generic s-expression tree type PTree.

The external storage collaborator (the tshistory base class) is
modelled as a map from series names to their ordered list of
(insertion date, snapshot) versions; get/history/insertion_dates on
primaries follow the documented as-of semantics of that collaborator.
Modules of this repository that are imported by tsio.py but whose
sources were not available (interpreter.py, registry.py, funcs.py)
are modelled from the spec; each such definition carries a doc
comment starting with "Modelled from the spec:".
-/

namespace TshF

/-- A value snapshot of one series: an association list from value
dates to values, kept ordered by value date. -/
abbrev Series := List (Int × Int)

/-- A history map for one series: insertion date to snapshot, ordered
by insertion date (Python dicts in tsio.py are built in key order). -/
abbrev Hist := List (Int × Series)

/-- Association-list lookup for string keys (Python dict access). -/
def alookup {α : Type} : List (String × α) → String → Option α
  | [], _ => none
  | (k, v) :: rest, key => if k = key then some v else alookup rest key

/-- Association-list lookup for time keys (Python dict access on a
history map). -/
def alookupT {α : Type} : List (Int × α) → Int → Option α
  | [], _ => none
  | (k, v) :: rest, key => if k = key then some v else alookupT rest key

/-- Keys of a history map, in order. -/
def histKeys (h : Hist) : List Int := h.map Prod.fst

/-- Last entry of a history whose insertion date is at or before r:
the as-of version resolution of the storage collaborator (equals
taking the last element of the entries filtered by key at most r). -/
def asofEntry : Hist → Int → Option (Int × Series)
  | [], _ => none
  | p :: rest, r =>
    if p.1 ≤ r then some ((asofEntry rest r).getD p) else asofEntry rest r

/-- Snapshot of the as-of entry. -/
def asofLookup (h : Hist) (r : Int) : Option Series :=
  (asofEntry h r).map Prod.snd

/-- Version resolution with an optional revision date: absent a
revision date the latest version applies. -/
def versionAsOf (h : Hist) (r : Option Int) : Option (Int × Series) :=
  match r with
  | none => h.getLast?
  | some t => asofEntry h t

/-- Membership test of a value date in the optional value-date window. -/
def inWindow (fvd tvd : Option Int) (d : Int) : Bool :=
  (match fvd with | some a => decide (a ≤ d) | none => true) &&
  (match tvd with | some b => decide (d ≤ b) | none => true)

/-- Restriction of a snapshot to the value-date window. -/
def window (fvd tvd : Option Int) (s : Series) : Series :=
  s.filter (fun p => inWindow fvd tvd p.1)

/-- Membership test of an insertion date in the optional insertion
bounds. -/
def inIBounds (fi ti : Option Int) (i : Int) : Bool :=
  (match fi with | some a => decide (a ≤ i) | none => true) &&
  (match ti with | some b => decide (i ≤ b) | none => true)

/-- Value of a snapshot at one value date. -/
def seriesAt (s : Series) (d : Int) : Option Int :=
  (s.find? (fun q => q.1 = d)).map Prod.snd

/-- Modelled from the spec: the add operator (funcs.py is not under
src/) sums its operands pointwise; a date missing from either operand
is absent from the sum (the repository test
test_history_with_spurious_keys shows a sum against an absent operand
evaluating to an empty series). -/
def addSeries (a b : Series) : Series :=
  a.filterMap (fun p => (seriesAt b p.1).map (fun v => (p.1, p.2 + v)))

/-- Modelled from the spec: overlay of a patch snapshot on a computed
one (tshistory.util.patch, an external collaborator): patched points
win, other points are kept. -/
def patchSeries (ts p : Series) : Series :=
  ts.filter (fun q => (seriesAt p q.1).isNone) ++ p

/-- Structured expression trees: the shallow embedding of the formula
language restricted to the operators the claims are about. series
names a stored series, sadd is the add operator, asof pins a fixed
revision date for its subtree, auto is an autotrophic operator call
site (no named series input). The let wrapper injected by
inject_toplevel_bindings is not reified: the ambient query context is
passed explicitly to the evaluators below. -/
inductive Expr : Type
  | series (name : String)
  | sadd (a b : Expr)
  | asof (pin : Int) (sub : Expr)
  | auto (op : String)
  deriving DecidableEq, Repr

/-- The engine state: the external primary store (name to ordered
versions), the formula registry (name to parsed definition tree and
stored content hash), the formula patch sub-store (a second primary
store, see tsio.py timeseries.__init__), and the per-operator
autotrophic providers (the HISTORY / IDATES registries, and the plain
evaluation of an auto operator under an ambient context). -/
structure Store where
  primaries : String → Hist
  formulas : String → Option Expr
  contenthash : String → Option String
  patchdb : String → Hist
  autoIdates : String → Option (Option Int → Option Int → List Int)
  autoHistory : String → Option (Option Int → Option Int → Option Int → Option Int → Hist)
  autoGet : String → Option Int → Option Int → Option Int → Series

/-- Translation of timeseries.has_asof (tsio.py): an asof node
anywhere in the tree. -/
def hasAsofE : Expr → Bool
  | .series _ => false
  | .sadd a b => hasAsofE a || hasAsofE b
  | .asof _ _ => true
  | .auto _ => false

/-- Append with first-occurrence deduplication, the update order of a
Python dict built by successive update calls. -/
def dedupAppend (a b : List String) : List String :=
  a ++ b.filter (fun x => ¬ a.contains x)

/-- Translation of timeseries.find_series (tsio.py): names of the
series leaves, in first-occurrence order, one occurrence each (the
Python version returns a dict keyed by name; the finder for the series
operator, registry.py not being under src/, is modelled from the spec
as yielding that operator's name argument). -/
def findSeriesE : Expr → List String
  | .series n => [n]
  | .sadd a b => dedupAppend (findSeriesE a) (findSeriesE b)
  | .asof _ s => findSeriesE s
  | .auto _ => []

/-- Call-site operator names of the auto operator nodes, in traversal
order with duplicates (timeseries.find_callsites collects every call
site). -/
def autoSites : Expr → List String
  | .series _ => []
  | .sadd a b => autoSites a ++ autoSites b
  | .asof _ s => autoSites s
  | .auto op => [op]

/-- Translation of helper.expanded restricted to the Expr subset:
references to registered formulas are inlined recursively; primaries
and auto operators are left alone. The source recursion is unbounded
(the level=-1 default) and only terminates on acyclic registries, so
the embedding carries explicit fuel counting inlining depth and
returns none when it runs out; the fill/limit/weight options and the
ARGSCOPES rewriters do not exist on this operator subset. -/
def expandStep (rec : Expr → Option Expr) (st : Store) : Expr → Option Expr
  | .series n =>
    match st.formulas n with
    | none => some (.series n)
    | some f => rec f
  | .sadd a b =>
    match expandStep rec st a, expandStep rec st b with
    | some a', some b' => some (.sadd a' b')
    | _, _ => none
  | .asof p s => (expandStep rec st s).map (fun s' => .asof p s')
  | .auto op => some (.auto op)

/-- Expansion with fuel: each inlining of a formula definition
descends one fuel level (the factoring through expandStep keeps the
recursion structural in the fuel so that concrete runs reduce). -/
def expandE : Nat → Store → Expr → Option Expr
  | 0, st, e => expandStep (fun _ => none) st e
  | fuel + 1, st, e => expandStep (expandE fuel st) st e

/-- Modelled from the spec: one evaluation pass of an expanded tree
under an ambient query context (the Interpreter of interpreter.py is
not under src/): a series leaf resolves through timeseries.get (the
getS argument, the lookup at the current fuel level), add sums, asof
re-binds the ambient revision date for its subtree (the manual
time-travel construct pins a fixed revision rather than inheriting the
ambient one), an auto operator computes from the ambient context
alone. A series that resolves to nothing contributes an empty
snapshot. -/
def evalStep (getS : String → Option Int → Option Int → Option Int → Option Series)
    (st : Store) (rev : Option Int) (fvd tvd : Option Int) : Expr → Series
  | .series n => (getS n rev fvd tvd).getD []
  | .sadd a b =>
    addSeries (evalStep getS st rev fvd tvd a) (evalStep getS st rev fvd tvd b)
  | .asof p sub => evalStep getS st (some p) fvd tvd sub
  | .auto op => st.autoGet op rev fvd tvd

/-- Translation of timeseries.get (tsio.py): a registered formula is
expanded and evaluated under the ambient context, then the patch
sub-store overlay is applied when present and non-empty at that
context; otherwise the primary store answers with the as-of version
restricted to the value window (no alternative sources in the model).
Fuel bounds the formula recursion of the source (structural in the
fuel so that concrete runs reduce). -/
def getSeries (fuel : Nat) (st : Store) (name : String) (rev : Option Int)
    (fvd tvd : Option Int) : Option Series :=
  match st.formulas name with
    | some f =>
      match fuel with
      | 0 => none
      | fuel' + 1 =>
        match expandE (fuel' + 1) st f with
        | none => none
        | some tree =>
          let ts := evalStep (getSeries fuel' st) st rev fvd tvd tree
          if st.patchdb name = [] then some ts
          else
            let tsp := ((versionAsOf (st.patchdb name) rev).map
              (fun p => window fvd tvd p.2)).getD []
            if tsp = [] then some ts else some (patchSeries ts tsp)
    | none => (versionAsOf (st.primaries name) rev).map (fun p => window fvd tvd p.2)

/-- Evaluation of an expanded tree under an ambient query context with
series leaves resolved through timeseries.get at the given fuel. -/
def evalGet (fuel : Nat) (st : Store) (rev : Option Int) (fvd tvd : Option Int)
    (e : Expr) : Series :=
  evalStep (getSeries fuel st) st rev fvd tvd e

/-- Python sorted(set(l)) on insertion dates: the strictly increasing
duplicate-free enumeration of the elements of l (insertion sort of the
deduplicated list, kept structural so concrete runs reduce). -/
def sortedDedup (l : List Int) : List Int :=
  l.dedup.insertionSort (· ≤ ·)

/-- Python sorted(set(l)) on names. -/
def sortedDedupS (l : List String) : List String :=
  l.dedup.insertionSort (· ≤ ·)

/-- Existence test (timeseries.exists, tsio.py): a name exists when it
is a registered formula or the primary store holds versions for it (no
alternative sources in the model). -/
def existsName (st : Store) (n : String) : Bool :=
  (st.formulas n).isSome || st.primaries n ≠ []

/-- Insertion dates of a primary within the insertion bounds
(timeseries._revisions of the storage collaborator; the value-date
arguments it also receives select revisions touching the window, a
filter the model leaves to the identity). -/
def primaryIdates (st : Store) (n : String) (fi ti : Option Int) : List Int :=
  (histKeys (st.primaries n)).filter (inIBounds fi ti)

/-- History of a primary within the insertion bounds, each snapshot
restricted to the value window (the base store's history). -/
def primaryHistory (st : Store) (n : String) (fi ti : Option Int)
    (fvd tvd : Option Int) : Hist :=
  ((st.primaries n).filter (fun p => inIBounds fi ti p.1)).map
    (fun p => (p.1, window fvd tvd p.2))

/-- Sequenced collection of per-leaf revision lists: a failing leaf
lookup fails the whole collection (the model's fuel-exhaustion
channel). -/
def collectRevs (step : String → Option (List Int)) : List String →
    Option (List (List Int))
  | [] => some []
  | s :: rest =>
    match step s, collectRevs step rest with
    | some r, some rs => some (r :: rs)
    | _, _ => none

/-- Revision dates contributed by the autotrophic IDATES providers at
the call sites (timeseries.insertion_dates, auto operator part). -/
def isiteRevs (st : Store) (sites : List String) (fi ti : Option Int) :
    List Int :=
  sites.flatMap (fun op =>
    match st.autoIdates op with
    | some fn => fn fi ti
    | none => [])

/-- Last-resort revision dates for HISTORY operators without an IDATES
provider: the keys of a full operator history. -/
def histsiteRevs (st : Store) (sites : List String)
    (fi ti fvd tvd : Option Int) : List Int :=
  sites.flatMap (fun op =>
    if (st.autoIdates op).isSome then []
    else match st.autoHistory op with
      | some fn => histKeys (fn fi ti fvd tvd)
      | none => [])

/-- Translation of timeseries.insertion_dates (tsio.py): on a formula,
the union of the insertion dates of the component series of the parsed
(unexpanded) definition — recursive on nested formulas, primaries via
the storage collaborator, unknown names skipped — plus the dates of
the autotrophic call sites (IDATES providers, and, as a last resort,
the keys of a full operator history for HISTORY operators without an
IDATES provider), sorted and deduplicated. Fuel bounds the unbounded
recursion of the source; none signals exhaustion. -/
def insertionDates (fuel : Nat) (st : Store) (name : String)
    (fi ti : Option Int) (fvd tvd : Option Int) : Option (List Int) :=
  match st.formulas name with
  | none => some (primaryIdates st name fi ti)
  | some f =>
    match fuel with
    | 0 => none
    | fuel' + 1 =>
      match collectRevs (fun s =>
          if ¬ existsName st s then some []
          else if (st.formulas s).isSome then
            insertionDates fuel' st s fi ti fvd tvd
          else some (primaryIdates st s fi ti)) (findSeriesE f) with
      | none => none
      | some revs =>
        some (sortedDedup (revs.flatten ++ isiteRevs st (autoSites f) fi ti ++
          histsiteRevs st (autoSites f) fi ti fvd tvd))

/-- Translation of timeseries.iter_revisions (tsio.py), materialized
as the association list it yields: for each insertion date of the
series within the insertion bounds (value bounds are not forwarded to
insertion_dates there), the series as of that date over the value
window. -/
def iter_revisions (fuel : Nat) (st : Store) (name : String)
    (fi ti : Option Int) (fvd tvd : Option Int) : Option Hist :=
  (insertionDates fuel st name fi ti none none).map (fun l =>
    l.map (fun i => (i, (getSeries fuel st name (some i) fvd tvd).getD [])))

/-- Minimum of a list of times (Python min). -/
def minL : List Int → Option Int
  | [] => none
  | t :: rest =>
    match minL rest with
    | none => some t
    | some m => some (min t m)

/-- Completion of one collected leaf history entry from the optional
fetch of the leaf as of the global minimum date (the loop body of
timeseries._complete_histories_start): a non-empty fetch is prepended
under the mindate key, anything else leaves the entry alone. -/
def gapEntry (p : String × Hist) (mindate : Int) (o : Option Series) :
    String × Hist :=
  match o with
  | some ts => if ts = [] then p else (p.1, (mindate, ts) :: p.2)
  | none => p

/-- Translation of timeseries._complete_histories_start (tsio.py):
with mindate the smallest key present across the collected non-empty
leaf histories, every leaf history lacking mindate is completed, when
the leaf fetched as of mindate over the value window is non-empty,
with a first entry at mindate holding that fetch. -/
def complete_histories_start (fuel : Nat) (st : Store)
    (histmap : List (String × Hist)) (fvd tvd : Option Int) :
    List (String × Hist) :=
  match minL (histmap.filterMap (fun p => minL (histKeys p.2))) with
  | none => histmap
  | some mindate =>
    histmap.map (fun p =>
      if (histKeys p.2).contains mindate then p
      else gapEntry p mindate (getSeries fuel st p.1 (some mindate) fvd tvd))

/-- Modelled from the spec: the delta between two successive snapshots
(tshistory.util.diff, an external collaborator): the points of the new
snapshot that are absent from or changed against the base (point
removals are outside the snapshot model). -/
def diffSeries (base new : Series) : Series :=
  new.filter (fun p => seriesAt base p.1 ≠ some p.2)

/-- Inner loop of timeseries._history_diffs: each date's snapshot is
diffed against the immediately preceding one. -/
def diffsFrom (hist : Hist) (base : Series) : List Int → Hist
  | [] => []
  | i :: rest =>
    let cur := (alookupT hist i).getD []
    (i, diffSeries base cur) :: diffsFrom hist cur rest

/-- Translation of timeseries._history_diffs (tsio.py): the first
snapshot is diffed against the series as of one second before the
first insertion date (the implicit baseline; one second is one unit of
the integer time model), each later one against its predecessor. The
source raises on an empty date list (next on the iterator); the model
returns none there, and the call sites guard non-emptiness. -/
def history_diffs (fuel : Nat) (st : Store) (name : String) (hist : Hist)
    (idates : List Int) (fvd tvd : Option Int) : Option Hist :=
  match idates with
  | [] => none
  | i0 :: _ =>
    let basets := (getSeries fuel st name (some (i0 - 1)) fvd tvd).getD []
    some (diffsFrom hist basets idates)

/-- Forged anchor name of an autotrophic call site
(helper.name_of_expr builds it from the operator name and arguments;
the model prefixes the operator name, assumed not to collide with
series names). -/
def autoName (op : String) : String := "auto-" ++ op

/-- Auto operator histories precomputed into the history interpreter
(timeseries._precompute_auto_histories): one entry per HISTORY call
site under its forged name. -/
def autoHists (st : Store) (tree : Expr) (fi ti : Option Int)
    (fvd tvd : Option Int) : List (String × Hist) :=
  (autoSites tree).filterMap (fun op =>
    match st.autoHistory op with
    | some fn => some (autoName op, fn fi ti fvd tvd)
    | none => none)

/-- Modelled from the spec: the HistoryInterpreter (interpreter.py is
not under src/) evaluates the expanded tree against an environment
that resolves each leaf reference to its historical value as of the
evaluation's insertion date, looked up in the precomputed per-leaf
history maps rather than live storage (spec section 4.5 step 5); a
leaf with no entry at or before that date contributes an empty
snapshot; auto operators resolve through their forged anchor name.
The asof case is unreachable from history, which guards the merging
path with has_asof; it is modelled as plain recursion. -/
def evalHist (hists : List (String × Hist)) (i : Int) : Expr → Series
  | .series n => ((alookup hists n).bind (fun h => asofLookup h i)).getD []
  | .sadd a b => addSeries (evalHist hists i a) (evalHist hists i b)
  | .asof _ sub => evalHist hists i sub
  | .auto op => ((alookup hists (autoName op)).bind (fun h => asofLookup h i)).getD []

/-- Tail of the merging path of timeseries.history, applied to the
collected (and possibly start-completed) leaf histories: the
precomputed auto operator histories join the interpreter's history map
(the history interpreter's histories alias histmap, which
_precompute_auto_histories mutates before the idates are computed at
tsio.py line 720), the formula is evaluated once per candidate date —
the union of the keys of the leaf and auto histories — and diffmode
applies when candidates exist. -/
def mergeFinish (fuel : Nat) (st : Store) (name : String) (tree : Expr)
    (fi ti : Option Int) (fvd tvd : Option Int) (diffmode : Bool)
    (histmap2 : List (String × Hist)) : Option Hist :=
  if diffmode ∧ sortedDedup ((autoHists st tree fi ti fvd tvd ++ histmap2).flatMap
      (fun p => histKeys p.2)) ≠ [] then
    history_diffs fuel st name
      ((sortedDedup ((autoHists st tree fi ti fvd tvd ++ histmap2).flatMap
          (fun p => histKeys p.2))).map
        (fun i => (i, evalHist (autoHists st tree fi ti fvd tvd ++ histmap2) i tree)))
      (sortedDedup ((autoHists st tree fi ti fvd tvd ++ histmap2).flatMap
        (fun p => histKeys p.2))) fvd tvd
  else
    some ((sortedDedup ((autoHists st tree fi ti fvd tvd ++ histmap2).flatMap
        (fun p => histKeys p.2))).map
      (fun i => (i, evalHist (autoHists st tree fi ti fvd tvd ++ histmap2) i tree)))

/-- History of a primary at the storage collaborator, honoring
diffmode with the same successive-delta semantics (an external
concern; the base store returns the stored diffs). -/
def primaryHistoryD (st : Store) (name : String) (fi ti : Option Int)
    (fvd tvd : Option Int) (diffmode : Bool) : Hist :=
  if diffmode then
    match histKeys (primaryHistory st name fi ti fvd tvd) with
    | [] => []
    | i0 :: _ =>
      diffsFrom (primaryHistory st name fi ti fvd tvd)
        (((versionAsOf (st.primaries name) (some (i0 - 1))).map
          (fun p => window fvd tvd p.2)).getD [])
        (histKeys (primaryHistory st name fi ti fvd tvd))
  else primaryHistory st name fi ti fvd tvd

/-- Slow path of timeseries.history for formulas holding an asof node:
one full re-evaluation per enumerated revision date through
iter_revisions (the diffmode conversion there receives no value
window, faithfully to the untested source branch). -/
def slowPath (fuel : Nat) (st : Store) (name : String) (fi ti : Option Int)
    (fvd tvd : Option Int) (diffmode : Bool) : Option Hist :=
  match iter_revisions fuel st name fi ti fvd tvd with
  | none => none
  | some hist =>
    if diffmode then
      history_diffs fuel st name hist (histKeys hist) none none
    else some hist

/-- Translation of timeseries.history (tsio.py). Primaries go to the
storage collaborator. A formula is expanded; with an asof node the
slow path enumerates the formula's insertion dates and re-evaluates
per date; otherwise the merging path collects every leaf's history,
completes the start when a from_insertion_date floor was given and
histories were collected, then finishes through mergeFinish. Fuel
bounds the source's unbounded formula recursion; a leaf history that
runs out of fuel degrades to empty just as a None leaf history does in
the source. -/
def historyF (fuel : Nat) (st : Store) (name : String) (fi ti : Option Int)
    (fvd tvd : Option Int) (diffmode : Bool) : Option Hist :=
  match st.formulas name with
  | none => some (primaryHistoryD st name fi ti fvd tvd diffmode)
  | some f =>
    match fuel with
    | 0 => none
    | fuel' + 1 =>
      match expandE (fuel' + 1) st f with
      | none => none
      | some tree =>
        if hasAsofE tree then
          slowPath (fuel' + 1) st name fi ti fvd tvd diffmode
        else
          mergeFinish (fuel' + 1) st name tree fi ti fvd tvd diffmode
            (if ((findSeriesE tree).map (fun s =>
                   (s, (historyF fuel' st s fi ti fvd tvd false).getD []))) ≠ [] ∧
                fi.isSome then
              complete_histories_start (fuel' + 1) st
                ((findSeriesE tree).map (fun s =>
                  (s, (historyF fuel' st s fi ti fvd tvd false).getD []))) fvd tvd
            else
              (findSeriesE tree).map (fun s =>
                (s, (historyF fuel' st s fi ti fvd tvd false).getD [])))

/-- Comparator for the gap-filling claim: the history pipeline with
the start-completion step removed, all else equal. -/
def history_no_complete (fuel : Nat) (st : Store) (name : String)
    (fi ti : Option Int) (fvd tvd : Option Int) (diffmode : Bool) : Option Hist :=
  match st.formulas name with
  | none => some (primaryHistoryD st name fi ti fvd tvd diffmode)
  | some f =>
    match fuel with
    | 0 => none
    | fuel' + 1 =>
      match expandE (fuel' + 1) st f with
      | none => none
      | some tree =>
        if hasAsofE tree then
          slowPath (fuel' + 1) st name fi ti fvd tvd diffmode
        else
          mergeFinish (fuel' + 1) st name tree fi ti fvd tvd diffmode
            ((findSeriesE tree).map (fun s =>
              (s, (history_no_complete fuel' st s fi ti fvd tvd false).getD [])))

/-- Translation of timeseries.latest_insertion_date (tsio.py): on a
formula, the last of its insertion dates (the source indexes [-1] and
raises on an empty list: none models both that and fuel exhaustion). -/
def latest_insertion_date (fuel : Nat) (st : Store) (name : String) : Option Int :=
  match st.formulas name with
  | some _ => (insertionDates fuel st name none none none none).bind List.getLast?
  | none => (primaryIdates st name none none).getLast?

/-- Translation of timeseries.first_insertion_date (tsio.py). -/
def first_insertion_date (fuel : Nat) (st : Store) (name : String) : Option Int :=
  match st.formulas name with
  | some _ => (insertionDates fuel st name none none none none).bind List.head?
  | none => (primaryIdates st name none none).head?

/-- Dependency edges: (formula, directly needed formula) pairs. -/
abbrev Edges := List (String × String)

/-- Translation of timeseries.register_dependents (tsio.py): the edges
of name are fully replaced by one edge towards every directly
referenced series of the parsed definition that is itself a formula
(find_series deduplicates, matching the on-conflict-do-nothing
insert). -/
def register_dependents (st : Store) (edges : Edges) (name : String)
    (tree : Expr) : Edges :=
  edges.filter (fun e => e.1 ≠ name) ++
    (findSeriesE tree).filterMap (fun dep =>
      if (st.formulas dep).isSome then some (name, dep) else none)

/-- Translation of timeseries.dependents (tsio.py): the formulas
holding an edge on name; direct mode sorts and deduplicates them,
transitive mode recursively extends with their own dependents before
sorting and deduplicating. The source recursion is unbounded (it only
terminates on acyclic edge sets), so the model carries fuel. -/
def dependents (edges : Edges) (fuel : Nat) (name : String) (direct : Bool) :
    Option (List String) :=
  let deps := edges.filterMap (fun e => if e.2 = name then some e.1 else none)
  if direct then some (sortedDedupS deps)
  else
    match fuel with
    | 0 => none
    | fuel' + 1 =>
      (deps.mapM (fun d => dependents edges fuel' d false)).map (fun more =>
        sortedDedupS (deps ++ more.flatten))

/-- Modelled digest: register_formula hashes the serialized expansion
with hashlib.sha1 (an external collaborator); the model keeps the
digest injective, the working assumption of the content-hash design,
by letting the serialization stand for its own digest. -/
def sha1 (s : String) : String := s

/-- Decimal digit characters. -/
def digitChar : Nat → Char
  | 0 => '0' | 1 => '1' | 2 => '2' | 3 => '3' | 4 => '4'
  | 5 => '5' | 6 => '6' | 7 => '7' | 8 => '8' | _ => '9'

/-- Numeric value of a digit character. -/
def digitVal : Char → Nat
  | '1' => 1 | '2' => 2 | '3' => 3 | '4' => 4 | '5' => 5
  | '6' => 6 | '7' => 7 | '8' => 8 | '9' => 9 | _ => 0

/-- Decimal rendering of a natural number, most significant digit
first (the rendering of numeric atoms by the psyl serializer). -/
def natChars (n : Nat) : List Char :=
  if _h : n < 10 then [digitChar n]
  else natChars (n / 10) ++ [digitChar (n % 10)]
decreasing_by exact Nat.div_lt_self (by omega) (by omega)

/-- Decimal rendering of an integer. -/
def intChars (i : Int) : List Char :=
  if i < 0 then '-' :: natChars i.natAbs else natChars i.natAbs

/-- Serialization of an expression, modelling the psyl serializer (an
external collaborator) on the Expr operator subset: parenthesized
prefix syntax, quoted series names, the asof pin rendered as a date
literal. -/
def serE : Expr → List Char
  | .series n => '(' :: 's' :: 'e' :: 'r' :: 'i' :: 'e' :: 's' :: ' ' :: '"' ::
      (n.data ++ '"' :: ')' :: [])
  | .sadd a b => '(' :: 'a' :: 'd' :: 'd' :: ' ' ::
      (serE a ++ ' ' :: (serE b ++ ')' :: []))
  | .asof p sub => '(' :: 'a' :: 's' :: 'o' :: 'f' :: ' ' ::
      '(' :: 'd' :: 'a' :: 't' :: 'e' :: ' ' ::
      (intChars p ++ ')' :: ' ' :: (serE sub ++ ')' :: []))
  | .auto op => '(' :: (op.data ++ ')' :: [])

/-- Characters that may occur inside an unquoted token: anything but
the token delimiters of the serialized syntax. -/
def tokOK (c : Char) : Bool := c ≠ ' ' && c ≠ ')' && c ≠ '"'

/-- Well-formedness of an expression for serialization: series names
contain no quote character, auto operator names contain no delimiter.
Registered names and operator names satisfy this. -/
def goodE : Expr → Bool
  | .series n => n.data.all (fun c => c ≠ '"')
  | .sadd a b => goodE a && goodE b
  | .asof _ sub => goodE sub
  | .auto op => op.data.all tokOK

/-- Serialized content hash of a live formula: translation of
timeseries.live_content_hash (tsio.py). -/
def live_content_hash (fuel : Nat) (st : Store) (name : String) : Option String :=
  (st.formulas name).bind (fun f =>
    (expandE fuel st f).map (fun ex => sha1 (String.mk (serE ex))))

/-- Content-hash part of timeseries.register_formula (tsio.py lines
231-249): the definition tree is stored together with the sha1 of the
serialized full expansion, computed against the registry as it stands
before the write. Checks and metadata outside the Expr subset are
handled by the PTree registration model below; none signals expansion
fuel exhaustion (a cyclic registry). -/
def registerFormulaE (fuel : Nat) (st : Store) (name : String) (tree : Expr) :
    Option Store :=
  (expandE fuel st tree).map (fun ex =>
    { st with
      formulas := fun n => if n = name then some tree else st.formulas n,
      contenthash := fun n =>
        if n = name then some (sha1 (String.mk (serE ex))) else st.contenthash n })

/-- One level of the names whose registry entry the expansion of an
expression consults, mirroring expandStep. -/
def touchedStep (rec : Expr → List String) (st : Store) : Expr → List String
  | .series n =>
    match st.formulas n with
    | none => [n]
    | some f => n :: rec f
  | .sadd a b => touchedStep rec st a ++ touchedStep rec st b
  | .asof _ s => touchedStep rec st s
  | .auto _ => []

/-- Names whose registry entry the expansion of an expression
consults, mirroring the recursion of expandE (structural in the fuel
so that concrete runs reduce). -/
def touchedNames : Nat → Store → Expr → List String
  | 0, st, e => touchedStep (fun _ => []) st e
  | fuel + 1, st, e => touchedStep (touchedNames fuel st) st e

/-! Helper lemmas about the list-level building blocks. -/

/-- A history map is ordered when its keys strictly increase. -/
def StrictHist (h : Hist) : Prop :=
  List.Pairwise (fun a b : Int × Series => a.1 < b.1) h

instance (h : Hist) : Decidable (StrictHist h) := by
  unfold StrictHist; infer_instance

theorem minL_eq_none {l : List Int} : minL l = none ↔ l = [] := by
  cases l with
  | nil => simp [minL]
  | cons t rest =>
    simp only [minL]
    cases hrest : minL rest with
    | none => simp
    | some mr => simp

theorem minL_le {l : List Int} : ∀ {m : Int}, minL l = some m →
    ∀ x ∈ l, m ≤ x := by
  induction l with
  | nil => intro m hm; simp [minL] at hm
  | cons t rest ih =>
    intro m hm x hx
    simp only [minL] at hm
    rw [List.mem_cons] at hx
    cases hrest : minL rest with
    | none =>
      rw [hrest] at hm
      cases hm
      rcases hx with hx | hx
      · omega
      · rw [minL_eq_none.mp hrest] at hx; simp at hx
    | some mr =>
      rw [hrest] at hm
      cases hm
      have hmin1 : min t mr ≤ t := min_le_left t mr
      have hmin2 : min t mr ≤ mr := min_le_right t mr
      rcases hx with hx | hx
      · omega
      · have := ih hrest x hx; omega

theorem minL_mem {l : List Int} : ∀ {m : Int}, minL l = some m → m ∈ l := by
  induction l with
  | nil => intro m hm; simp [minL] at hm
  | cons t rest ih =>
    intro m hm
    simp only [minL] at hm
    cases hrest : minL rest with
    | none =>
      rw [hrest] at hm
      cases hm; exact List.mem_cons_self _ _
    | some mr =>
      rw [hrest] at hm
      cases hm
      rcases le_total t mr with h | h
      · rw [min_eq_left h]; exact List.mem_cons_self _ _
      · rw [min_eq_right h]; exact List.mem_cons_of_mem _ (ih hrest)

theorem asofEntry_mem {h : Hist} {r : Int} : ∀ {p : Int × Series},
    asofEntry h r = some p → p ∈ h ∧ p.1 ≤ r := by
  induction h with
  | nil => intro p he; simp [asofEntry] at he
  | cons q rest ih =>
    intro p he
    simp only [asofEntry] at he
    by_cases hq : q.1 ≤ r
    · rw [if_pos hq] at he
      cases hrest : asofEntry rest r with
      | none =>
        rw [hrest] at he
        simp only [Option.getD] at he
        cases he; exact ⟨List.mem_cons_self _ _, hq⟩
      | some p' =>
        rw [hrest] at he
        simp only [Option.getD] at he
        cases he
        have := ih hrest
        exact ⟨List.mem_cons_of_mem _ this.1, this.2⟩
    · rw [if_neg hq] at he
      have := ih he
      exact ⟨List.mem_cons_of_mem _ this.1, this.2⟩

theorem asofEntry_none {h : Hist} {r : Int} :
    asofEntry h r = none ↔ ∀ p ∈ h, r < p.1 := by
  induction h with
  | nil => simp [asofEntry]
  | cons q rest ih =>
    simp only [asofEntry]
    by_cases hq : q.1 ≤ r
    · rw [if_pos hq]
      constructor
      · intro he; cases asofEntry rest r <;> simp at he
      · intro hall
        have := hall q (List.mem_cons_self _ _)
        omega
    · rw [if_neg hq]
      rw [ih]
      constructor
      · intro hall p hp
        rw [List.mem_cons] at hp
        rcases hp with hp | hp
        · subst hp; omega
        · exact hall p hp
      · intro hall p hp
        exact hall p (List.mem_cons_of_mem _ hp)

theorem asofEntry_max {h : Hist} {r : Int} {q : Int × Series}
    (hs : StrictHist h) (hq : q ∈ h) (hqr : q.1 ≤ r) :
    ∃ p, asofEntry h r = some p ∧ q.1 ≤ p.1 ∧ p ∈ h ∧ p.1 ≤ r := by
  induction h with
  | nil => simp at hq
  | cons w rest ih =>
    have hs' : StrictHist rest := hs.of_cons
    have hwlt : ∀ p ∈ rest, w.1 < p.1 := by
      intro p hp; exact List.rel_of_pairwise_cons hs hp
    simp only [asofEntry]
    rw [List.mem_cons] at hq
    rcases hq with hq | hq
    · subst hq
      rw [if_pos hqr]
      cases hrest : asofEntry rest r with
      | none =>
        exact ⟨q, rfl, le_refl _, List.mem_cons_self _ _, hqr⟩
      | some p' =>
        have hm := asofEntry_mem hrest
        exact ⟨p', rfl, le_of_lt (hwlt p' hm.1),
          List.mem_cons_of_mem _ hm.1, hm.2⟩
    · rcases ih hs' hq with ⟨p, hp, hle, hmem, hpr⟩
      by_cases hw : w.1 ≤ r
      · rw [if_pos hw, hp]
        exact ⟨p, rfl, hle, List.mem_cons_of_mem _ hmem, hpr⟩
      · rw [if_neg hw]
        exact ⟨p, hp, hle, List.mem_cons_of_mem _ hmem, hpr⟩

theorem strictHist_key_inj {h : Hist} (hs : StrictHist h) {p q : Int × Series}
    (hp : p ∈ h) (hq : q ∈ h) (hk : p.1 = q.1) : p = q := by
  induction h with
  | nil => simp at hp
  | cons w rest ih =>
    have hwlt : ∀ x ∈ rest, w.1 < x.1 := by
      intro x hx; exact List.rel_of_pairwise_cons hs hx
    rw [List.mem_cons] at hp hq
    rcases hp with hp | hp <;> rcases hq with hq | hq
    · rw [hp, hq]
    · subst hp; have := hwlt q hq; omega
    · subst hq; have := hwlt p hp; omega
    · exact ih hs.of_cons hp hq

theorem asofEntry_eq_max {h : Hist} {r : Int} {p : Int × Series}
    (hs : StrictHist h) :
    asofEntry h r = some p ↔
      p ∈ h ∧ p.1 ≤ r ∧ ∀ q ∈ h, q.1 ≤ r → q.1 ≤ p.1 := by
  constructor
  · intro he
    have hm := asofEntry_mem he
    refine ⟨hm.1, hm.2, ?_⟩
    intro q hq hqr
    rcases asofEntry_max hs hq hqr with ⟨p', hp', hle, _, _⟩
    rw [he] at hp'; cases hp'; exact hle
  · rintro ⟨hmem, hle, hmax⟩
    rcases asofEntry_max hs hmem hle with ⟨p', hp', hle', hmem', hp'r⟩
    have h1 : p'.1 ≤ p.1 := hmax p' hmem' hp'r
    have heq : p = p' :=
      strictHist_key_inj hs hmem hmem' (le_antisymm hle' h1)
    rw [heq]; exact hp'

theorem historyF_primary {fuel : Nat} {st : Store} {name : String}
    {fi ti fvd tvd : Option Int} {dm : Bool} (hf : st.formulas name = none) :
    historyF fuel st name fi ti fvd tvd dm =
      some (primaryHistoryD st name fi ti fvd tvd dm) := by
  conv_lhs => rw [historyF.eq_def]
  rw [hf]

theorem historyF_zero {st : Store} {name : String}
    {fi ti fvd tvd : Option Int} {dm : Bool} {f : Expr}
    (hf : st.formulas name = some f) :
    historyF 0 st name fi ti fvd tvd dm = none := by
  conv_lhs => rw [historyF.eq_def]
  rw [hf]

theorem historyF_formula {fuel : Nat} {st : Store} {name : String}
    {fi ti fvd tvd : Option Int} {dm : Bool} {f : Expr}
    (hf : st.formulas name = some f) :
    historyF (fuel + 1) st name fi ti fvd tvd dm =
      match expandE (fuel + 1) st f with
      | none => none
      | some tree =>
        if hasAsofE tree then slowPath (fuel + 1) st name fi ti fvd tvd dm
        else
          mergeFinish (fuel + 1) st name tree fi ti fvd tvd dm
            (if ((findSeriesE tree).map (fun s =>
                   (s, (historyF fuel st s fi ti fvd tvd false).getD []))) ≠ [] ∧
                fi.isSome then
              complete_histories_start (fuel + 1) st
                ((findSeriesE tree).map (fun s =>
                  (s, (historyF fuel st s fi ti fvd tvd false).getD []))) fvd tvd
            else
              (findSeriesE tree).map (fun s =>
                (s, (historyF fuel st s fi ti fvd tvd false).getD []))) := by
  conv_lhs => rw [historyF.eq_def]
  rw [hf]

theorem history_no_complete_primary {fuel : Nat} {st : Store} {name : String}
    {fi ti fvd tvd : Option Int} {dm : Bool} (hf : st.formulas name = none) :
    history_no_complete fuel st name fi ti fvd tvd dm =
      some (primaryHistoryD st name fi ti fvd tvd dm) := by
  conv_lhs => rw [history_no_complete.eq_def]
  rw [hf]

theorem history_no_complete_zero {st : Store} {name : String}
    {fi ti fvd tvd : Option Int} {dm : Bool} {f : Expr}
    (hf : st.formulas name = some f) :
    history_no_complete 0 st name fi ti fvd tvd dm = none := by
  conv_lhs => rw [history_no_complete.eq_def]
  rw [hf]

theorem history_no_complete_formula {fuel : Nat} {st : Store} {name : String}
    {fi ti fvd tvd : Option Int} {dm : Bool} {f : Expr}
    (hf : st.formulas name = some f) :
    history_no_complete (fuel + 1) st name fi ti fvd tvd dm =
      match expandE (fuel + 1) st f with
      | none => none
      | some tree =>
        if hasAsofE tree then slowPath (fuel + 1) st name fi ti fvd tvd dm
        else
          mergeFinish (fuel + 1) st name tree fi ti fvd tvd dm
            ((findSeriesE tree).map (fun s =>
              (s, (history_no_complete fuel st s fi ti fvd tvd false).getD []))) := by
  conv_lhs => rw [history_no_complete.eq_def]
  rw [hf]

theorem historyF_no_floor (st : Store) : ∀ (fuel : Nat) (name : String)
    (ti fvd tvd : Option Int) (dm : Bool),
    historyF fuel st name none ti fvd tvd dm =
      history_no_complete fuel st name none ti fvd tvd dm := by
  intro fuel
  induction fuel with
  | zero =>
    intro name ti fvd tvd dm
    cases hf : st.formulas name with
    | none => rw [historyF_primary hf, history_no_complete_primary hf]
    | some f => rw [historyF_zero hf, history_no_complete_zero hf]
  | succ fuel ih =>
    intro name ti fvd tvd dm
    cases hf : st.formulas name with
    | none => rw [historyF_primary hf, history_no_complete_primary hf]
    | some f =>
      rw [historyF_formula hf, history_no_complete_formula hf]
      cases expandE (fuel + 1) st f with
      | none => rfl
      | some tree =>
        simp only []
        by_cases ha : hasAsofE tree
        · simp only [ha, if_true]
        · simp only [ha, Bool.false_eq_true, if_false, Option.isSome_none,
            and_false, if_false]
          congr 1
          apply List.map_congr_left
          intro s _
          rw [ih]

/-- Claim C2: when history is called on a formula with a
from_insertion_date floor and the collected per-leaf histories are
non-empty, then for m the minimum insertion date present across all
collected leaf histories, every leaf whose history lacks key m gains
an entry at m holding that leaf fetched with revision_date m — added
only when the fetch returns a non-empty series, and placed first so
the history stays ordered by key — and no such completion is performed
when from_insertion_date is not supplied. -/
theorem claim2_gap_filling (fuel : Nat) (st : Store)
    (histmap : List (String × Hist)) (fvd tvd : Option Int) (mindate : Int)
    (hmin : minL (histmap.filterMap (fun p => minL (histKeys p.2))) = some mindate) :
    (∀ p ∈ histmap, ∀ k ∈ histKeys p.2, mindate ≤ k) ∧
    (∃ p ∈ histmap, mindate ∈ histKeys p.2) ∧
    List.Forall₂ (fun p q : String × Hist =>
      q.1 = p.1 ∧
      (mindate ∈ histKeys p.2 → q = p) ∧
      (mindate ∉ histKeys p.2 →
        (∀ ts, getSeries fuel st p.1 (some mindate) fvd tvd = some ts →
          ts ≠ [] → q = (p.1, (mindate, ts) :: p.2)) ∧
        ((getSeries fuel st p.1 (some mindate) fvd tvd).getD [] = [] → q = p) ∧
        (StrictHist p.2 → StrictHist q.2)))
      histmap (complete_histories_start fuel st histmap fvd tvd) ∧
    (∀ (name : String) (f tree : Expr) (d : Int) (ti : Option Int) (dm : Bool)
      (fl : Nat),
      st.formulas name = some f → expandE (fl + 1) st f = some tree →
      hasAsofE tree = false → findSeriesE tree ≠ [] →
      historyF (fl + 1) st name (some d) ti fvd tvd dm =
        mergeFinish (fl + 1) st name tree (some d) ti fvd tvd dm
          (complete_histories_start (fl + 1) st
            ((findSeriesE tree).map (fun s =>
              (s, (historyF fl st s (some d) ti fvd tvd false).getD []))) fvd tvd)) ∧
    (∀ (fl : Nat) (name : String) (ti fvd' tvd' : Option Int) (dm : Bool),
      historyF fl st name none ti fvd' tvd' dm =
        history_no_complete fl st name none ti fvd' tvd' dm) := by
  have hminmem : ∀ p ∈ histmap, ∀ k ∈ histKeys p.2, mindate ≤ k := by
    intro p hp k hk
    have hne : histKeys p.2 ≠ [] := by
      intro hnil; rw [hnil] at hk; simp at hk
    cases hkm : minL (histKeys p.2) with
    | none => exact absurd (minL_eq_none.mp hkm) hne
    | some km =>
      have h1 : km ≤ k := minL_le hkm k hk
      have h2 : km ∈ histmap.filterMap (fun p => minL (histKeys p.2)) := by
        rw [List.mem_filterMap]
        exact ⟨p, hp, hkm⟩
      have h3 : mindate ≤ km := minL_le hmin km h2
      omega
  refine ⟨hminmem, ?_, ?_, ?_, historyF_no_floor st⟩
  · have h1 := minL_mem hmin
    rw [List.mem_filterMap] at h1
    rcases h1 with ⟨p, hp, hpmin⟩
    exact ⟨p, hp, minL_mem hpmin⟩
  · rw [complete_histories_start]
    simp only [hmin]
    rw [List.forall₂_map_right_iff, List.forall₂_same]
    intro p hp
    by_cases hmem : mindate ∈ histKeys p.2
    · have hc : (histKeys p.2).contains mindate = true := List.elem_iff.mpr hmem
      rw [if_pos hc]
      exact ⟨rfl, fun _ => rfl, fun habs => absurd hmem habs⟩
    · have hc : ¬ (histKeys p.2).contains mindate = true := by
        intro hcc; exact hmem (List.elem_iff.mp hcc)
      rw [if_neg hc]
      have hstrict : ∀ ts : Series, StrictHist p.2 →
          StrictHist ((mindate, ts) :: p.2) := by
        intro ts hsp
        refine List.Pairwise.cons ?_ hsp
        intro x hx
        have h1 : mindate ≤ x.1 :=
          hminmem p hp x.1 (List.mem_map_of_mem Prod.fst hx)
        have h2 : mindate ≠ x.1 := by
          intro he; exact hmem (he ▸ List.mem_map_of_mem Prod.fst hx)
        simp only []
        omega
      cases hget : getSeries fuel st p.1 (some mindate) fvd tvd with
      | none =>
        simp only [gapEntry]
        simp
      | some ts =>
        simp only [gapEntry]
        by_cases hts : ts = []
        · subst hts
          rw [if_pos rfl]
          simp
        · rw [if_neg hts]
          refine ⟨rfl, fun h => absurd h hmem, fun _ => ⟨?_, ?_, ?_⟩⟩
          · intro ts' hts' _
            cases hts'; rfl
          · intro hempty
            exact absurd hempty hts
          · intro hsp
            exact hstrict ts hsp
  · intro name f tree d ti dm fl hf hexp ha hne
    rw [historyF_formula hf, hexp]
    simp only [ha, Bool.false_eq_true, if_false]
    congr 1
    have hcond : ((findSeriesE tree).map (fun s =>
        (s, (historyF fl st s (some d) ti fvd tvd false).getD []))) ≠ [] ∧
        (some d : Option Int).isSome = true := by
      constructor
      · simp only [ne_eq, List.map_eq_nil_iff]
        exact hne
      · rfl
    rw [if_pos hcond]

/-- Concrete empty store used by several witnesses. -/
def egStoreEmpty : Store :=
  ⟨fun _ => [], fun _ => none, fun _ => none, fun _ => [],
   fun _ => none, fun _ => none, fun _ _ _ _ => []⟩

/-- Concrete collected-histories map used by the gap-filling witness:
leaf a updated at 10, leaf b at 20. -/
def egHistmapC2 : List (String × Hist) :=
  [("a", [((10 : Int), [((0 : Int), (1 : Int))])]),
   ("b", [((20 : Int), [((0 : Int), (2 : Int))])])]

/-- Witness: the gap-filling description instantiated at a concrete
collected-histories map with minimum present date 10. -/
theorem claim2_gap_filling_witness :
    minL (egHistmapC2.filterMap (fun p => minL (histKeys p.2))) = some 10 ∧
    (∀ p ∈ egHistmapC2, ∀ k ∈ histKeys p.2, (10 : Int) ≤ k) :=
  ⟨by decide,
   (claim2_gap_filling 3 egStoreEmpty egHistmapC2 none none 10 (by decide)).1⟩

theorem alookupT_cons {α : Type} (k : Int) (v : α) (rest : List (Int × α))
    (key : Int) :
    alookupT ((k, v) :: rest) key =
      if k = key then some v else alookupT rest key := rfl

theorem diffsFrom_keys (hist : Hist) : ∀ (idates : List Int) (base : Series),
    histKeys (diffsFrom hist base idates) = idates := by
  intro idates
  induction idates with
  | nil => intro base; rfl
  | cons i rest ih =>
    intro base
    simp only [diffsFrom, histKeys, List.map_cons]
    rw [show List.map Prod.fst (diffsFrom hist ((alookupT hist i).getD []) rest) =
      histKeys (diffsFrom hist ((alookupT hist i).getD []) rest) from rfl]
    rw [ih]

theorem diffsFrom_head (hist : Hist) (base : Series) (i0 : Int)
    (rest : List Int) :
    alookupT (diffsFrom hist base (i0 :: rest)) i0 =
      some (diffSeries base ((alookupT hist i0).getD [])) := by
  simp [diffsFrom, alookupT_cons]

theorem diffsFrom_chain (hist : Hist) : ∀ (idates : List Int) (base : Series),
    idates.Nodup →
    ∀ pr ∈ idates.zip idates.tail,
      alookupT (diffsFrom hist base idates) pr.2 =
        some (diffSeries ((alookupT hist pr.1).getD [])
          ((alookupT hist pr.2).getD [])) := by
  intro idates
  induction idates with
  | nil => intro base _ pr hpr; simp at hpr
  | cons i0 rest ih =>
    intro base hnd pr hpr
    cases rest with
    | nil => simp at hpr
    | cons i1 rest' =>
      simp only [List.tail_cons, List.zip_cons_cons] at hpr
      rw [List.mem_cons] at hpr
      have hi0tl : i0 ∉ i1 :: rest' := (List.nodup_cons.mp hnd).1
      rcases hpr with hpr | hpr
      · subst hpr
        have hne01 : ¬ i0 = i1 := by
          intro he; exact hi0tl (he ▸ List.mem_cons_self _ _)
        simp only [diffsFrom, alookupT_cons]
        rw [if_neg hne01]
        simp
      · have hp2 : pr.2 ∈ rest' := (List.of_mem_zip hpr).2
        have hne : i0 ≠ pr.2 := by
          intro he; exact hi0tl (he ▸ List.mem_cons_of_mem _ hp2)
        simp only [diffsFrom, alookupT_cons]
        rw [if_neg hne]
        exact ih ((alookupT hist i0).getD []) (List.nodup_cons.mp hnd).2 pr hpr

theorem sortedDedup_nodup (l : List Int) : (sortedDedup l).Nodup :=
  (List.perm_insertionSort _ _).nodup_iff.mpr l.nodup_dedup

theorem sortedDedup_mem (l : List Int) (x : Int) :
    x ∈ sortedDedup l ↔ x ∈ l := by
  unfold sortedDedup
  rw [List.mem_insertionSort, List.mem_dedup]

theorem sortedDedup_sorted (l : List Int) :
    List.Sorted (· < ·) (sortedDedup l) :=
  (List.sorted_insertionSort _ _).lt_of_le (sortedDedup_nodup l)

theorem histKeys_map_eval (l : List Int) (F : Int → Series) :
    histKeys (l.map (fun i => (i, F i))) = l := by
  rw [histKeys, List.map_map]
  have hcomp : (Prod.fst ∘ fun i : Int => (i, F i)) = id := rfl
  rw [hcomp, List.map_id]

theorem mergeFinish_diff {fuel : Nat} {st : Store} {name : String} {tree : Expr}
    {fi ti fvd tvd : Option Int} {H : List (String × Hist)} {hist : Hist}
    {i0 : Int} {rest : List Int}
    (hplain : mergeFinish fuel st name tree fi ti fvd tvd false H = some hist)
    (hkeys : histKeys hist = i0 :: rest) :
    mergeFinish fuel st name tree fi ti fvd tvd true H =
      some (diffsFrom hist
        ((getSeries fuel st name (some (i0 - 1)) fvd tvd).getD [])
        (histKeys hist)) ∧
    (histKeys hist).Nodup := by
  simp only [mergeFinish, Bool.false_eq_true, false_and, if_false,
    Option.some.injEq] at hplain
  have hkeq : histKeys hist = sortedDedup
      ((autoHists st tree fi ti fvd tvd ++ H).flatMap (fun p => histKeys p.2)) := by
    rw [← hplain, histKeys_map_eval]
  have hne : sortedDedup
      ((autoHists st tree fi ti fvd tvd ++ H).flatMap (fun p => histKeys p.2)) ≠ [] := by
    rw [← hkeq, hkeys]; simp
  constructor
  · simp only [mergeFinish, true_and]
    rw [if_pos hne]
    rw [hplain, ← hkeq, hkeys]
    simp only [history_diffs]
  · rw [hkeq]; exact sortedDedup_nodup _

/-- Claim C6: when history is called with diffmode true on the
leaf-merging path and there is at least one candidate insertion date,
the returned map holds, for each insertion date in increasing order,
the delta of that date's snapshot against the immediately preceding
date's snapshot, and the first snapshot is diffed against the series
retrieved with revision date one second (one unit of integer time)
before the first insertion date. -/
theorem claim6_history_diffmode
    (fuel : Nat) (st : Store) (name : String) (f tree : Expr)
    (fi ti fvd tvd : Option Int) (hist : Hist) (i0 : Int) (rest : List Int)
    (hf : st.formulas name = some f)
    (hexp : expandE (fuel + 1) st f = some tree)
    (ha : hasAsofE tree = false)
    (hplain : historyF (fuel + 1) st name fi ti fvd tvd false = some hist)
    (hkeys : histKeys hist = i0 :: rest) :
    ∃ dh, historyF (fuel + 1) st name fi ti fvd tvd true = some dh ∧
      histKeys dh = histKeys hist ∧
      alookupT dh i0 =
        some (diffSeries
          ((getSeries (fuel + 1) st name (some (i0 - 1)) fvd tvd).getD [])
          ((alookupT hist i0).getD [])) ∧
      ∀ pr ∈ (histKeys hist).zip (histKeys hist).tail,
        alookupT dh pr.2 =
          some (diffSeries ((alookupT hist pr.1).getD [])
            ((alookupT hist pr.2).getD [])) := by
  rw [historyF_formula hf, hexp] at hplain
  rw [historyF_formula hf, hexp]
  simp only [ha, Bool.false_eq_true, if_false] at hplain ⊢
  rcases mergeFinish_diff hplain hkeys with ⟨hdiff, hnd⟩
  refine ⟨_, hdiff, ?_, ?_, ?_⟩
  · rw [diffsFrom_keys]
  · rw [hkeys, diffsFrom_head]
  · intro pr hpr
    exact diffsFrom_chain hist (histKeys hist)
      ((getSeries (fuel + 1) st name (some (i0 - 1)) fvd tvd).getD [])
      hnd pr hpr

theorem complete_histories_start_keys (fuel : Nat) (st : Store)
    (histmap : List (String × Hist)) (fvd tvd : Option Int) (i : Int) :
    (i ∈ (complete_histories_start fuel st histmap fvd tvd).flatMap
      (fun p => histKeys p.2)) ↔
    i ∈ histmap.flatMap (fun p => histKeys p.2) := by
  unfold complete_histories_start
  cases hmin : minL (histmap.filterMap (fun p => minL (histKeys p.2))) with
  | none => exact Iff.rfl
  | some mindate =>
    have hmindate : mindate ∈ histmap.flatMap (fun p => histKeys p.2) := by
      have h1 := minL_mem hmin
      rw [List.mem_filterMap] at h1
      rcases h1 with ⟨p, hp, hpmin⟩
      rw [List.mem_flatMap]
      exact ⟨p, hp, minL_mem hpmin⟩
    simp only [List.mem_flatMap, List.mem_map]
    constructor
    · rintro ⟨q, ⟨p, hp, hq⟩, hi⟩
      subst hq
      by_cases hc : (histKeys p.2).contains mindate
      · rw [if_pos hc] at hi
        exact ⟨p, hp, hi⟩
      · rw [if_neg hc] at hi
        cases hget : getSeries fuel st p.1 (some mindate) fvd tvd with
        | none =>
          rw [hget] at hi
          exact ⟨p, hp, hi⟩
        | some ts =>
          rw [hget] at hi
          by_cases hts : ts = []
          · subst hts
            simp only [gapEntry, if_pos rfl] at hi
            exact ⟨p, hp, hi⟩
          · simp only [gapEntry, if_neg hts, histKeys, List.map_cons,
              List.mem_cons] at hi
            rcases hi with hi | hi
            · subst hi
              rw [List.mem_flatMap] at hmindate
              exact hmindate
            · exact ⟨p, hp, hi⟩
    · rintro ⟨p, hp, hi⟩
      refine ⟨if (histKeys p.2).contains mindate then p
        else gapEntry p mindate (getSeries fuel st p.1 (some mindate) fvd tvd),
        ⟨p, hp, rfl⟩, ?_⟩
      by_cases hc : (histKeys p.2).contains mindate
      · rw [if_pos hc]; exact hi
      · rw [if_neg hc]
        cases hget : getSeries fuel st p.1 (some mindate) fvd tvd with
        | none => exact hi
        | some ts =>
          by_cases hts : ts = []
          · subst hts; simp only [gapEntry, if_pos rfl]; exact hi
          · simp only [gapEntry, if_neg hts, histKeys, List.map_cons]
            exact List.mem_cons_of_mem _ hi

theorem mem_flatMap_append (A B : List (String × Hist)) (i : Int) :
    (i ∈ (A ++ B).flatMap (fun p => histKeys p.2)) ↔
      (i ∈ A.flatMap (fun p => histKeys p.2)) ∨
      (i ∈ B.flatMap (fun p => histKeys p.2)) := by
  simp only [List.mem_flatMap, List.mem_append]
  constructor
  · rintro ⟨p, hp | hp, hi⟩
    · exact Or.inl ⟨p, hp, hi⟩
    · exact Or.inr ⟨p, hp, hi⟩
  · rintro (⟨p, hp, hi⟩ | ⟨p, hp, hi⟩)
    · exact ⟨p, Or.inl hp, hi⟩
    · exact ⟨p, Or.inr hp, hi⟩

/-- Claim C5 (amended): in the leaf-merging history path every
candidate insertion date stays a key of the returned map, also when
its evaluated snapshot is empty: the key set is exactly the union of
the collected leaf histories' keys and the precomputed auto operator
histories' keys. -/
theorem claim5_empty_snapshots_kept (fuel : Nat) (st : Store) (name : String)
    (f tree : Expr) (fi ti fvd tvd : Option Int)
    (hf : st.formulas name = some f)
    (hexp : expandE (fuel + 1) st f = some tree)
    (ha : hasAsofE tree = false) :
    ∃ h, historyF (fuel + 1) st name fi ti fvd tvd false = some h ∧
      ∀ i : Int, i ∈ histKeys h ↔
        ((∃ s ∈ findSeriesE tree,
          i ∈ histKeys ((historyF fuel st s fi ti fvd tvd false).getD [])) ∨
         (∃ p ∈ autoHists st tree fi ti fvd tvd, i ∈ histKeys p.2)) := by
  rw [historyF_formula hf, hexp]
  simp only [ha, Bool.false_eq_true, if_false]
  simp only [mergeFinish, false_and, if_false]
  refine ⟨_, rfl, ?_⟩
  intro i
  rw [histKeys_map_eval, sortedDedup_mem, mem_flatMap_append]
  have hautos : (i ∈ (autoHists st tree fi ti fvd tvd).flatMap
      (fun p => histKeys p.2)) ↔
      ∃ p ∈ autoHists st tree fi ti fvd tvd, i ∈ histKeys p.2 :=
    List.mem_flatMap
  have hbase : (i ∈ ((findSeriesE tree).map (fun s =>
      (s, (historyF fuel st s fi ti fvd tvd false).getD []))).flatMap
        (fun p => histKeys p.2)) ↔
      ∃ s ∈ findSeriesE tree,
        i ∈ histKeys ((historyF fuel st s fi ti fvd tvd false).getD []) := by
    simp only [List.mem_flatMap, List.mem_map]
    constructor
    · rintro ⟨q, ⟨s, hs, hq⟩, hi⟩
      subst hq
      exact ⟨s, hs, hi⟩
    · rintro ⟨s, hs, hi⟩
      exact ⟨(s, (historyF fuel st s fi ti fvd tvd false).getD []), ⟨s, hs, rfl⟩, hi⟩
  by_cases hcond : ((findSeriesE tree).map (fun s =>
      (s, (historyF fuel st s fi ti fvd tvd false).getD []))) ≠ [] ∧ fi.isSome = true
  · rw [if_pos hcond, complete_histories_start_keys, hautos, hbase]
    exact or_comm
  · rw [if_neg hcond, hautos, hbase]
    exact or_comm

theorem insertionDates_primary {fuel : Nat} {st : Store} {name : String}
    {fi ti fvd tvd : Option Int} (hf : st.formulas name = none) :
    insertionDates fuel st name fi ti fvd tvd =
      some (primaryIdates st name fi ti) := by
  conv_lhs => rw [insertionDates.eq_def]
  rw [hf]

theorem insertionDates_formula {fuel : Nat} {st : Store} {name : String}
    {fi ti fvd tvd : Option Int} {f : Expr} (hf : st.formulas name = some f) :
    insertionDates (fuel + 1) st name fi ti fvd tvd =
      match collectRevs (fun s =>
          if ¬ existsName st s then some []
          else if (st.formulas s).isSome then
            insertionDates fuel st s fi ti fvd tvd
          else some (primaryIdates st s fi ti)) (findSeriesE f) with
      | none => none
      | some revs =>
        some (sortedDedup (revs.flatten ++ isiteRevs st (autoSites f) fi ti ++
          histsiteRevs st (autoSites f) fi ti fvd tvd)) := by
  conv_lhs => rw [insertionDates.eq_def]
  rw [hf]

theorem collectRevs_forall2 (step : String → Option (List Int)) :
    ∀ (ls : List String) (rl : List (List Int)),
    collectRevs step ls = some rl →
    List.Forall₂ (fun s r => step s = some r) ls rl := by
  intro ls
  induction ls with
  | nil => intro rl h; cases h; exact List.Forall₂.nil
  | cons s rest ih =>
    intro rl h
    simp only [collectRevs] at h
    cases hs : step s with
    | none => rw [hs] at h; cases h
    | some r =>
      rw [hs] at h
      cases hrest : collectRevs step rest with
      | none => rw [hrest] at h; cases h
      | some rs =>
        rw [hrest] at h
        cases h
        exact List.Forall₂.cons hs (ih rs hrest)

/-- Claim C10: for every registered formula, insertion_dates returns a
strictly increasing, duplicate-free list formed from the union of its
component series' revision dates and its autotrophic operators' dates;
first_insertion_date and latest_insertion_date on a formula return the
first and last element of that list. -/
theorem claim10_insertion_dates (fuel : Nat) (st : Store) (name : String)
    (f : Expr) (fi ti fvd tvd : Option Int) (l : List Int)
    (hf : st.formulas name = some f)
    (hl : insertionDates (fuel + 1) st name fi ti fvd tvd = some l) :
    List.Sorted (· < ·) l ∧ l.Nodup ∧
    (∃ revs : List (List Int),
      List.Forall₂ (fun s rs =>
        (existsName st s = false → rs = []) ∧
        (existsName st s = true → (st.formulas s).isSome = true →
          insertionDates fuel st s fi ti fvd tvd = some rs) ∧
        (existsName st s = true → (st.formulas s).isSome = false →
          rs = primaryIdates st s fi ti))
        (findSeriesE f) revs ∧
      (∀ i : Int, i ∈ l ↔
        (∃ rs ∈ revs, i ∈ rs) ∨ i ∈ isiteRevs st (autoSites f) fi ti ∨
          i ∈ histsiteRevs st (autoSites f) fi ti fvd tvd)) ∧
    (∀ l0 : List Int,
      insertionDates (fuel + 1) st name none none none none = some l0 →
      latest_insertion_date (fuel + 1) st name = l0.getLast? ∧
      first_insertion_date (fuel + 1) st name = l0.head?) := by
  rw [insertionDates_formula hf] at hl
  cases hcoll : collectRevs (fun s =>
      if ¬ existsName st s then some []
      else if (st.formulas s).isSome then
        insertionDates fuel st s fi ti fvd tvd
      else some (primaryIdates st s fi ti)) (findSeriesE f) with
  | none => rw [hcoll] at hl; cases hl
  | some revs =>
    rw [hcoll] at hl
    cases hl
    refine ⟨sortedDedup_sorted _, sortedDedup_nodup _, ⟨revs, ?_, ?_⟩, ?_⟩
    · refine (collectRevs_forall2 _ _ _ hcoll).imp ?_
      intro s rs hstep
      by_cases he : existsName st s = true
      · have hne : ¬ ¬ (existsName st s = true) := fun hc => hc he
        rw [if_neg hne] at hstep
        by_cases hfm : (st.formulas s).isSome = true
        · rw [if_pos hfm] at hstep
          refine ⟨fun hfalse => ?_, fun _ _ => hstep, fun _ hfalse => ?_⟩
          · rw [hfalse] at he; cases he
          · rw [hfm] at hfalse; cases hfalse
        · rw [if_neg hfm] at hstep
          cases hstep
          refine ⟨fun hfalse => ?_, fun _ htrue => ?_, fun _ _ => rfl⟩
          · rw [hfalse] at he; cases he
          · exact absurd htrue hfm
      · have hyes : ¬ existsName st s = true := he
        rw [if_pos hyes] at hstep
        cases hstep
        refine ⟨fun _ => rfl, fun htrue _ => absurd htrue hyes,
          fun htrue _ => absurd htrue hyes⟩
    · intro i
      rw [sortedDedup_mem, List.mem_append, List.mem_append, List.mem_flatten]
      exact or_assoc
    · intro l0 hl0
      constructor
      · conv_lhs => rw [latest_insertion_date.eq_def]
        rw [hf, hl0]
        rfl
      · conv_lhs => rw [first_insertion_date.eq_def]
        rw [hf, hl0]
        rfl

/-- Concrete store for the insertion-dates witness: formula h over
primary x (versions at 3 and 1) and an auto operator site. -/
def egStoreC10 : Store :=
  ⟨fun n => if n = "x" then
      [((3 : Int), [((0 : Int), (5 : Int))]), (1, [(0, 7)])] else [],
   fun n => if n = "h" then some (.sadd (.series "x") (.auto "today")) else none,
   fun _ => none, fun _ => [],
   fun op => if op = "today" then some (fun _ _ => [(2 : Int)]) else none,
   fun _ => none, fun _ _ _ _ => []⟩

/-- Witness for claim C10 on the concrete store (leaf revisions 3 and
1 plus the auto date 2 give the sorted list 1, 2, 3). -/
theorem claim10_insertion_dates_witness :
    insertionDates 2 egStoreC10 "h" none none none none =
      some [(1 : Int), 2, 3] ∧
    (List.Sorted (· < ·) [(1 : Int), 2, 3] ∧ [(1 : Int), 2, 3].Nodup) := by
  refine ⟨by decide, ?_⟩
  have h := claim10_insertion_dates 1 egStoreC10 "h"
    (.sadd (.series "x") (.auto "today")) none none none none
    [(1 : Int), 2, 3] rfl (by decide)
  exact ⟨h.1, h.2.1⟩

theorem dedupAppend_mem (a b : List String) (x : String) :
    x ∈ dedupAppend a b ↔ x ∈ a ∨ x ∈ b := by
  unfold dedupAppend
  rw [List.mem_append, List.mem_filter]
  constructor
  · rintro (h | ⟨h, _⟩)
    · exact Or.inl h
    · exact Or.inr h
  · rintro (h | h)
    · exact Or.inl h
    · by_cases ha : x ∈ a
      · exact Or.inl ha
      · refine Or.inr ⟨h, ?_⟩
        rw [decide_eq_true_eq]
        intro hc
        exact ha (List.elem_iff.mp hc)

theorem findSeriesE_nodup (e : Expr) : (findSeriesE e).Nodup := by
  induction e with
  | series n => simp [findSeriesE]
  | sadd a b iha ihb =>
    simp only [findSeriesE]
    unfold dedupAppend
    refine List.Nodup.append iha (List.Nodup.filter _ ihb) ?_
    intro x hxa hxb
    rw [List.mem_filter] at hxb
    have h2 := hxb.2
    rw [decide_eq_true_eq] at h2
    exact h2 (List.elem_iff.mpr hxa)
  | asof p s ih => exact ih
  | auto op => simp [findSeriesE]

theorem expandStep_leaves (st : Store)
    (rec : Expr → Option Expr)
    (hrec : ∀ e' u', rec e' = some u' →
      ∀ s ∈ findSeriesE u', st.formulas s = none) :
    ∀ (e u : Expr), expandStep rec st e = some u →
      ∀ s ∈ findSeriesE u, st.formulas s = none := by
  intro e
  induction e with
  | series n =>
    intro u hu s hs
    simp only [expandStep] at hu
    cases hn : st.formulas n with
    | none =>
      rw [hn] at hu
      cases hu
      simp only [findSeriesE, List.mem_singleton] at hs
      rw [hs]; exact hn
    | some f =>
      rw [hn] at hu
      exact hrec f u hu s hs
  | sadd a b iha ihb =>
    intro u hu s hs
    simp only [expandStep] at hu
    cases hua : expandStep rec st a with
    | none => rw [hua] at hu; cases hu
    | some a' =>
      rw [hua] at hu
      cases hub : expandStep rec st b with
      | none => rw [hub] at hu; cases hu
      | some b' =>
        rw [hub] at hu
        cases hu
        simp only [findSeriesE] at hs
        rw [dedupAppend_mem] at hs
        rcases hs with hs | hs
        · exact iha a' hua s hs
        · exact ihb b' hub s hs
  | asof p sub ih =>
    intro u hu s hs
    simp only [expandStep] at hu
    cases husub : expandStep rec st sub with
    | none => rw [husub] at hu; cases hu
    | some sub' =>
      rw [husub] at hu
      cases hu
      exact ih sub' husub s hs
  | auto op =>
    intro u hu s hs
    simp only [expandStep] at hu
    cases hu
    simp [findSeriesE] at hs

theorem expandE_leaves (st : Store) : ∀ (fuel : Nat) (e u : Expr),
    expandE fuel st e = some u →
    ∀ s ∈ findSeriesE u, st.formulas s = none := by
  intro fuel
  induction fuel with
  | zero =>
    intro e u hu
    exact expandStep_leaves st _ (fun e' u' h => by cases h) e u hu
  | succ fuel ih =>
    intro e u hu
    exact expandStep_leaves st _ (fun e' u' h => ih e' u' h) e u hu

theorem getSeries_primary {fuel : Nat} {st : Store} {name : String}
    {rev : Option Int} {fvd tvd : Option Int}
    (hf : st.formulas name = none) :
    getSeries fuel st name rev fvd tvd =
      (versionAsOf (st.primaries name) rev).map (fun p => window fvd tvd p.2) := by
  conv_lhs => rw [getSeries.eq_def]
  rw [hf]

theorem getSeries_formula {fuel : Nat} {st : Store} {name : String}
    {rev : Option Int} {fvd tvd : Option Int} {f tree : Expr}
    (hf : st.formulas name = some f)
    (hexp : expandE (fuel + 1) st f = some tree)
    (hpatch : st.patchdb name = []) :
    getSeries (fuel + 1) st name rev fvd tvd =
      some (evalStep (getSeries fuel st) st rev fvd tvd tree) := by
  conv_lhs => rw [getSeries.eq_def]
  rw [hf]
  simp only [hexp, hpatch]
  simp

theorem alookup_map_self {β : Type} (names : List String) (F : String → β)
    (hnd : names.Nodup) (s : String) (hs : s ∈ names) :
    alookup (names.map (fun n => (n, F n))) s = some (F s) := by
  induction names with
  | nil => simp at hs
  | cons n rest ih =>
    simp only [List.map_cons, alookup]
    rw [List.mem_cons] at hs
    rcases hs with hs | hs
    · subst hs
      rw [if_pos rfl]
    · have hne : n ≠ s := by
        intro he
        subst he
        exact (List.nodup_cons.mp hnd).1 hs
      rw [if_neg hne]
      exact ih (List.nodup_cons.mp hnd).2 hs

theorem alookupT_map_self (l : List Int) (F : Int → Series)
    (hnd : l.Nodup) (i : Int) (hi : i ∈ l) :
    alookupT (l.map (fun j => (j, F j))) i = some (F i) := by
  induction l with
  | nil => simp at hi
  | cons j rest ih =>
    simp only [List.map_cons, alookupT]
    rw [List.mem_cons] at hi
    rcases hi with hi | hi
    · subst hi
      rw [if_pos rfl]
    · have hne : j ≠ i := by
        intro he; subst he
        exact (List.nodup_cons.mp hnd).1 hi
      rw [if_neg hne]
      exact ih (List.nodup_cons.mp hnd).2 hi

theorem sortedDedup_eq_of_mem_iff {l1 l2 : List Int}
    (h : ∀ x, x ∈ l1 ↔ x ∈ l2) : sortedDedup l1 = sortedDedup l2 := by
  apply List.eq_of_perm_of_sorted ?_ (sortedDedup_sorted l1).le_of_lt
    (sortedDedup_sorted l2).le_of_lt
  apply List.perm_of_nodup_nodup_toFinset_eq (sortedDedup_nodup l1)
    (sortedDedup_nodup l2)
  ext x
  simp only [List.mem_toFinset, sortedDedup_mem]
  exact h x

theorem inIBounds_mono {fi ti : Option Int} {a x b : Int}
    (ha : inIBounds fi ti a = true) (hb : inIBounds fi ti b = true)
    (hax : a ≤ x) (hxb : x ≤ b) : inIBounds fi ti x = true := by
  unfold inIBounds at *
  cases fi <;> cases ti <;> (simp_all; try omega)

theorem inIBounds_upper {fi ti : Option Int} {x b : Int} (hfi : fi = none)
    (hb : inIBounds fi ti b = true) (hxb : x ≤ b) :
    inIBounds fi ti x = true := by
  subst hfi
  unfold inIBounds at *
  cases ti <;> simp_all <;> omega

theorem primaryHistory_strict (st : Store) (s : String)
    (fi ti fvd tvd : Option Int) (hs : StrictHist (st.primaries s)) :
    StrictHist (primaryHistory st s fi ti fvd tvd) := by
  unfold primaryHistory StrictHist at *
  rw [List.pairwise_map]
  exact (hs.filter _).imp (fun h => h)

theorem primaryHistory_mem {st : Store} {s : String}
    {fi ti fvd tvd : Option Int} {q : Int × Series} :
    q ∈ primaryHistory st s fi ti fvd tvd ↔
      ∃ p ∈ st.primaries s, inIBounds fi ti p.1 = true ∧
        q = (p.1, window fvd tvd p.2) := by
  unfold primaryHistory
  simp only [List.mem_map, List.mem_filter]
  constructor
  · rintro ⟨p, ⟨hp, hb⟩, hq⟩
    exact ⟨p, hp, hb, hq.symm⟩
  · rintro ⟨p, hp, hb, hq⟩
    exact ⟨p, ⟨hp, hb⟩, hq.symm⟩

theorem histKeys_primaryHistory (st : Store) (s : String)
    (fi ti fvd tvd : Option Int) :
    histKeys (primaryHistory st s fi ti fvd tvd) = primaryIdates st s fi ti := by
  unfold primaryHistory primaryIdates histKeys
  generalize st.primaries s = l
  induction l with
  | nil => rfl
  | cons p rest ih =>
    simp only [List.map_cons, List.filter_cons]
    by_cases hb : inIBounds fi ti p.1 = true
    · simp only [hb, if_true, List.map_cons]
      rw [ih]
    · rw [Bool.not_eq_true] at hb
      simp only [hb, Bool.false_eq_true, if_false]
      rw [ih]

theorem primaryIdates_mem {st : Store} {s : String} {fi ti : Option Int}
    {k : Int} :
    k ∈ primaryIdates st s fi ti ↔
      k ∈ histKeys (st.primaries s) ∧ inIBounds fi ti k = true := by
  unfold primaryIdates
  rw [List.mem_filter]

theorem asofEntry_congr (D : Hist) (i m : Int)
    (h : ∀ q ∈ D, (q.1 ≤ i ↔ q.1 ≤ m)) : asofEntry D i = asofEntry D m := by
  induction D with
  | nil => rfl
  | cons q rest ih =>
    simp only [asofEntry]
    have hq := h q (List.mem_cons_self _ _)
    have hrest : ∀ p ∈ rest, (p.1 ≤ i ↔ p.1 ≤ m) := fun p hp =>
      h p (List.mem_cons_of_mem _ hp)
    rw [ih hrest]
    by_cases hqi : q.1 ≤ i
    · rw [if_pos hqi, if_pos (hq.mp hqi)]
    · rw [if_neg hqi, if_neg (fun hqm => hqi (hq.mpr hqm))]

theorem asofEntry_raw_eq (st : Store) (s : String) (fi ti fvd tvd : Option Int)
    (hs : StrictHist (st.primaries s)) (i : Int)
    (hi : inIBounds fi ti i = true)
    (hex : ∃ k ∈ histKeys (primaryHistory st s fi ti fvd tvd), k ≤ i) :
    asofEntry (primaryHistory st s fi ti fvd tvd) i =
      (asofEntry (st.primaries s) i).map (fun p => (p.1, window fvd tvd p.2)) := by
  rcases hex with ⟨k, hk, hki⟩
  rw [histKeys_primaryHistory] at hk
  rw [primaryIdates_mem] at hk
  rcases hk with ⟨hkD, hkb⟩
  unfold histKeys at hkD
  rw [List.mem_map] at hkD
  rcases hkD with ⟨p, hpD, hpk⟩
  have hpi : p.1 ≤ i := by rw [hpk]; exact hki
  rcases asofEntry_max hs hpD hpi with ⟨pmax, hpmax, hlep, hpmaxD, hpmaxi⟩
  have hkmax : k ≤ pmax.1 := by rw [← hpk]; exact hlep
  have hpmaxb : inIBounds fi ti pmax.1 = true :=
    inIBounds_mono hkb hi hkmax hpmaxi
  have hraws := primaryHistory_strict st s fi ti fvd tvd hs
  rw [hpmax, Option.map_some']
  rw [asofEntry_eq_max hraws]
  refine ⟨?_, hpmaxi, ?_⟩
  · rw [primaryHistory_mem]
    exact ⟨pmax, hpmaxD, hpmaxb, rfl⟩
  · intro q hq hqi
    rw [primaryHistory_mem] at hq
    rcases hq with ⟨p', hp'D, hp'b, hq⟩
    subst hq
    simp only at hqi ⊢
    rcases asofEntry_max hs hp'D hqi with ⟨pm', hpm', hle', _, _⟩
    rw [hpmax] at hpm'
    cases hpm'
    exact hle'

theorem asofEntry_none_of_no_raw (st : Store) (s : String)
    (ti fvd tvd : Option Int) (i : Int)
    (hi : inIBounds none ti i = true)
    (hno : ∀ k ∈ histKeys (primaryHistory st s none ti fvd tvd), ¬ k ≤ i) :
    asofEntry (st.primaries s) i = none := by
  rw [asofEntry_none]
  intro p hp
  by_contra hgt
  push_neg at hgt
  have hb : inIBounds (none : Option Int) ti p.1 = true :=
    inIBounds_upper rfl hi hgt
  have hk : p.1 ∈ histKeys (primaryHistory st s none ti fvd tvd) := by
    rw [histKeys_primaryHistory, primaryIdates_mem]
    exact ⟨List.mem_map_of_mem Prod.fst hp, hb⟩
  exact hno p.1 hk hgt

theorem asofEntry_at_mindate (st : Store) (s : String)
    (fi ti fvd tvd : Option Int) (i m : Int)
    (hi : inIBounds fi ti i = true) (hm : inIBounds fi ti m = true)
    (hmi : m ≤ i)
    (hno : ∀ k ∈ histKeys (primaryHistory st s fi ti fvd tvd), ¬ k ≤ i) :
    asofEntry (st.primaries s) i = asofEntry (st.primaries s) m := by
  apply asofEntry_congr
  intro q hq
  constructor
  · intro hqi
    by_contra hqm
    push_neg at hqm
    have hb : inIBounds fi ti q.1 = true :=
      inIBounds_mono hm hi (le_of_lt hqm) hqi
    have hk : q.1 ∈ histKeys (primaryHistory st s fi ti fvd tvd) := by
      rw [histKeys_primaryHistory, primaryIdates_mem]
      exact ⟨List.mem_map_of_mem Prod.fst hq, hb⟩
    exact hno q.1 hk hqi
  · intro hqm
    omega

theorem sortedDedupS_nodup (l : List String) : (sortedDedupS l).Nodup :=
  (List.perm_insertionSort _ _).nodup_iff.mpr l.nodup_dedup

theorem sortedDedupS_mem (l : List String) (x : String) :
    x ∈ sortedDedupS l ↔ x ∈ l := by
  unfold sortedDedupS
  rw [List.mem_insertionSort, List.mem_dedup]

theorem sortedDedupS_sorted (l : List String) :
    List.Sorted (· < ·) (sortedDedupS l) :=
  (List.sorted_insertionSort _ _).lt_of_le (sortedDedupS_nodup l)

/-- Edges of the claim C9 scenario, produced by registering bottom
(over a primary), mid needing bottom and top needing mid. -/
def egStoreC9 : Store :=
  ⟨fun n => if n = "p" then [((1 : Int), [((0 : Int), (1 : Int))])] else [],
   fun n => if n = "top" then some (.series "mid")
            else if n = "mid" then some (.series "bottom")
            else if n = "bottom" then some (.series "p")
            else none,
   fun _ => none, fun _ => [], fun _ => none, fun _ => none,
   fun _ _ _ _ => []⟩

/-- The dependency edges after the three registrations of the claim C9
scenario. -/
def egEdgesC9 : Edges :=
  register_dependents egStoreC9
    (register_dependents egStoreC9
      (register_dependents egStoreC9 [] "bottom" (.series "p"))
      "mid" (.series "bottom"))
    "top" (.series "mid")

/-- Claim C9: dependents with direct mode returns exactly the sorted
duplicate-free set of formulas holding a direct dependency edge on the
name; on the registered top-mid-bottom chain that set is mid for
bottom, and the transitive mode returns the sorted duplicate-free
closure mid, top. -/
theorem claim9_dependents :
    (∀ (edges : Edges) (fuel : Nat) (name : String),
      ∃ r, dependents edges fuel name true = some r ∧
        List.Sorted (· < ·) r ∧ r.Nodup ∧
        ∀ x : String, x ∈ r ↔ (x, name) ∈ edges) ∧
    dependents egEdgesC9 3 "bottom" true = some ["mid"] ∧
    (∃ r, dependents egEdgesC9 3 "bottom" false = some r ∧
      List.Sorted (· < ·) r ∧ r.Nodup ∧
      ∀ x : String, x ∈ r ↔ (x = "mid" ∨ x = "top")) := by
  refine ⟨?_, by decide, ?_⟩
  · intro edges fuel name
    refine ⟨sortedDedupS (edges.filterMap
        (fun e => if e.2 = name then some e.1 else none)),
      ?_, sortedDedupS_sorted _, sortedDedupS_nodup _, ?_⟩
    · rw [dependents.eq_def]
      simp
    · intro x
      rw [sortedDedupS_mem, List.mem_filterMap]
      constructor
      · rintro ⟨e, he, hx⟩
        by_cases h2 : e.2 = name
        · rw [if_pos h2] at hx
          cases hx
          have he' : e = (e.1, name) := by
            rw [← h2]
          rw [← he']
          exact he
        · rw [if_neg h2] at hx; cases hx
      · intro hmem
        refine ⟨(x, name), hmem, ?_⟩
        rw [if_pos rfl]
  · have hdeps : egEdgesC9.filterMap
        (fun e => if e.2 = "bottom" then some e.1 else none) = ["mid"] := by
      decide
    have hmid : dependents egEdgesC9 2 "mid" false = some ["top"] := by decide
    have hb : dependents egEdgesC9 3 "bottom" false =
        some (sortedDedupS ["mid", "top"]) := by
      rw [dependents.eq_def]
      simp only [Bool.false_eq_true, if_false, hdeps]
      rw [List.mapM_cons, List.mapM_nil, hmid]
      rfl
    refine ⟨_, hb, sortedDedupS_sorted _, sortedDedupS_nodup _, ?_⟩
    intro x
    rw [sortedDedupS_mem]
    simp

/-- Specification side of claim C3, written from the claim's words:
the map holding, for every insertion date of the formula within the
insertion bounds, the formula fetched with that revision date over the
value window — one full re-evaluation per enumerated revision date. -/
def historySlowSpec (fuel : Nat) (st : Store) (name : String)
    (fi ti fvd tvd : Option Int) : Option Hist :=
  (insertionDates fuel st name fi ti none none).map (fun l =>
    l.map (fun i => (i, (getSeries fuel st name (some i) fvd tvd).getD [])))

/-- Claim C3: for every formula whose expanded tree contains an asof
node, history with diffmode off equals the map from each enumerated
insertion date to the formula fetched as of that date — the slow path,
never the leaf-history-merging path. -/
theorem claim3_asof_slow_path (fuel : Nat) (st : Store) (name : String)
    (f tree : Expr) (fi ti fvd tvd : Option Int)
    (hf : st.formulas name = some f)
    (hexp : expandE (fuel + 1) st f = some tree)
    (ha : hasAsofE tree = true) :
    historyF (fuel + 1) st name fi ti fvd tvd false =
      historySlowSpec (fuel + 1) st name fi ti fvd tvd := by
  rw [historyF_formula hf, hexp]
  simp only [ha, if_true]
  unfold slowPath historySlowSpec iter_revisions
  cases insertionDates (fuel + 1) st name fi ti none none with
  | none => rfl
  | some l => simp

/-- Concrete store for the asof witness: a primary x with two
versions, a formula g pinning revision 1 over it. -/
def egStoreC3 : Store :=
  ⟨fun n => if n = "x" then
      [((1 : Int), [((0 : Int), (5 : Int))]), (2, [(0, 7)])] else [],
   fun n => if n = "g" then some (.asof 1 (.series "x")) else none,
   fun _ => none, fun _ => [], fun _ => none, fun _ => none,
   fun _ _ _ _ => []⟩

/-- Witness for claim C3 on the concrete pinned-revision store. -/
theorem claim3_asof_slow_path_witness :
    egStoreC3.formulas "g" = some (.asof 1 (.series "x")) ∧
    historyF 2 egStoreC3 "g" none none none none false =
      historySlowSpec 2 egStoreC3 "g" none none none none :=
  ⟨rfl, claim3_asof_slow_path 1 egStoreC3 "g" (.asof 1 (.series "x"))
    (.asof 1 (.series "x")) none none none none rfl rfl rfl⟩

/-- Concrete store for the counterexample to the pruning claim,
mirroring the repository test test_history_with_spurious_keys: leaf x
updated at 1, leaf y only at 2, formula f adding both. -/
def egStoreC5 : Store :=
  ⟨fun n => if n = "x" then [((1 : Int), [((0 : Int), (1 : Int))])]
            else if n = "y" then [((2 : Int), [((0 : Int), (2 : Int))])]
            else [],
   fun n => if n = "f" then some (.sadd (.series "x") (.series "y")) else none,
   fun _ => none, fun _ => [], fun _ => none, fun _ => none,
   fun _ _ _ _ => []⟩

/-- The history the merging path returns on the counterexample store:
the first date indexes an empty snapshot and is present. -/
def egHistC5 : Hist := [((1 : Int), ([] : Series)), (2, [(0, 3)])]

/-- Counterexample to claim C5 as stated: the candidate insertion date
1 evaluates to an empty snapshot (leaf y has no version yet) and is
nevertheless a key of the returned map. -/
theorem claim5_counterexample :
    historyF 2 egStoreC5 "f" none none none none false = some egHistC5 ∧
    alookupT egHistC5 1 = some [] ∧
    (1 : Int) ∈ histKeys egHistC5 := by
  refine ⟨by decide, by decide, by decide⟩

/-- Concrete store for the amended claim C5 witness: the formula fw
adds the primary x (one version at 1) and the autotrophic operator
today, whose HISTORY provider carries one version at 5 — so one
candidate date comes from the auto history, as in the repository's
test_constant. -/
def egStoreC5w : Store :=
  ⟨fun n => if n = "x" then [((1 : Int), [((0 : Int), (1 : Int))])] else [],
   fun n => if n = "fw" then some (.sadd (.series "x") (.auto "today")) else none,
   fun _ => none, fun _ => [],
   fun _ => none,
   fun op => if op = "today" then
       some (fun _ _ _ _ => [((5 : Int), [((0 : Int), (2 : Int))])])
     else none,
   fun _ _ _ _ => []⟩

/-- Witness for the amended claim C5 on the concrete store with an
auto history site: the auto provider's date 5 is a key of the result,
and the empty snapshot at date 1 (the auto history has no version at
or before 1) is kept. -/
theorem claim5_empty_snapshots_kept_witness :
    egStoreC5w.formulas "fw" = some (.sadd (.series "x") (.auto "today")) ∧
    historyF 2 egStoreC5w "fw" none none none none false =
      some [((1 : Int), ([] : Series)), (5, [(0, 3)])] ∧
    (∃ h, historyF 2 egStoreC5w "fw" none none none none false = some h ∧
      ∀ i : Int, i ∈ histKeys h ↔
        ((∃ s ∈ findSeriesE (.sadd (.series "x") (.auto "today")),
          i ∈ histKeys ((historyF 1 egStoreC5w s none none none none false).getD [])) ∨
         (∃ p ∈ autoHists egStoreC5w (.sadd (.series "x") (.auto "today"))
            none none none none, i ∈ histKeys p.2))) :=
  ⟨rfl, by decide, claim5_empty_snapshots_kept 1 egStoreC5w "fw"
    (.sadd (.series "x") (.auto "today")) (.sadd (.series "x") (.auto "today"))
    none none none none rfl rfl rfl⟩

/-- Concrete store for the diffmode witness: one primary x with
versions at 10 and 20, one formula fx over it. -/
def egStoreC6 : Store :=
  ⟨fun n => if n = "x" then
      [((10 : Int), [((0 : Int), (1 : Int))]), (20, [(0, 2)])] else [],
   fun n => if n = "fx" then some (.series "x") else none,
   fun _ => none, fun _ => [], fun _ => none, fun _ => none,
   fun _ _ _ _ => []⟩

/-- Plain history of fx in the concrete diffmode-witness store. -/
def egHistC6 : Hist := [((10 : Int), [((0 : Int), (1 : Int))]), (20, [(0, 2)])]

/-- Witness: the diffmode description instantiated on the concrete
two-revision store. -/
theorem claim6_history_diffmode_witness :
    historyF 2 egStoreC6 "fx" none none none none false = some egHistC6 ∧
    ∃ dh, historyF 2 egStoreC6 "fx" none none none none true = some dh ∧
      histKeys dh = histKeys egHistC6 := by
  refine ⟨by decide, ?_⟩
  rcases claim6_history_diffmode 1 egStoreC6 "fx" (.series "x") (.series "x")
      none none none none egHistC6 10 [20] (by decide) (by decide) rfl
      (by decide) (by decide) with ⟨dh, h1, h2, _⟩
  exact ⟨dh, h1, h2⟩


theorem gapEntry_none (p : String × Hist) (m : Int) : gapEntry p m none = p := rfl

theorem gapEntry_some_nil (p : String × Hist) (m : Int) :
    gapEntry p m (some []) = p := rfl

theorem gapEntry_some (p : String × Hist) (m : Int) (ts : Series)
    (hts : ts ≠ []) : gapEntry p m (some ts) = (p.1, (m, ts) :: p.2) := by
  show (if ts = [] then p else (p.1, (m, ts) :: p.2)) = (p.1, (m, ts) :: p.2)
  rw [if_neg hts]

theorem gapEntry_fst (p : String × Hist) (m : Int) (o : Option Series) :
    (gapEntry p m o).1 = p.1 := by
  cases o with
  | none => rfl
  | some ts =>
    show (if ts = [] then p else (p.1, (m, ts) :: p.2)).1 = p.1
    by_cases hts : ts = []
    · rw [if_pos hts]
    · rw [if_neg hts]

theorem asofEntry_prepend (h : Hist) (i mindate : Int) (ts : Series)
    (hmi : mindate ≤ i) :
    asofEntry ((mindate, ts) :: h) i =
      some ((asofEntry h i).getD (mindate, ts)) := by
  simp only [asofEntry]
  rw [if_pos hmi]

theorem asofEntry_none_keys {h : Hist} {i : Int}
    (hk : ∀ k ∈ histKeys h, ¬ k ≤ i) : asofEntry h i = none := by
  rw [asofEntry_none]
  intro p hp
  have := hk p.1 (List.mem_map_of_mem Prod.fst hp)
  omega

theorem getSeries_primary_entry (fuel : Nat) (st : Store) (n : String)
    (fvd tvd : Option Int) (t : Int) (hprim : st.formulas n = none) :
    getSeries fuel st n (some t) fvd tvd =
      (asofEntry (st.primaries n) t).map (fun p => window fvd tvd p.2) := by
  rw [getSeries_primary hprim]
  rfl

theorem raw_entry_value (fuel : Nat) (st : Store) (fi ti fvd tvd : Option Int)
    (n : String) (i : Int) (p : Int × Series)
    (hs : StrictHist (st.primaries n)) (hprim : st.formulas n = none)
    (hi : inIBounds fi ti i = true)
    (hp : asofEntry (primaryHistory st n fi ti fvd tvd) i = some p) :
    (getSeries fuel st n (some i) fvd tvd).getD [] = p.2 := by
  have hm := asofEntry_mem hp
  have hex : ∃ k ∈ histKeys (primaryHistory st n fi ti fvd tvd), k ≤ i :=
    ⟨p.1, List.mem_map_of_mem Prod.fst hm.1, hm.2⟩
  have h1 := asofEntry_raw_eq st n fi ti fvd tvd hs i hi hex
  rw [hp] at h1
  cases hD : asofEntry (st.primaries n) i with
  | none =>
    rw [hD, Option.map_none'] at h1
    cases h1
  | some q =>
    rw [hD, Option.map_some'] at h1
    injection h1 with h2
    subst h2
    rw [getSeries_primary_entry fuel st n fvd tvd i hprim, hD]
    rfl

theorem raw_leaf_value_ex (fuel : Nat) (st : Store) (fi ti fvd tvd : Option Int)
    (n : String) (i : Int)
    (hs : StrictHist (st.primaries n)) (hprim : st.formulas n = none)
    (hi : inIBounds fi ti i = true)
    (hex : ∃ k ∈ histKeys (primaryHistory st n fi ti fvd tvd), k ≤ i) :
    (asofLookup (primaryHistory st n fi ti fvd tvd) i).getD [] =
      (getSeries fuel st n (some i) fvd tvd).getD [] := by
  have hsome : ∃ p, asofEntry (primaryHistory st n fi ti fvd tvd) i = some p := by
    rcases hex with ⟨k, hk, hki⟩
    unfold histKeys at hk
    rw [List.mem_map] at hk
    rcases hk with ⟨q, hq, hqk⟩
    rw [← hqk] at hki
    rcases asofEntry_max (primaryHistory_strict st n fi ti fvd tvd hs) hq hki with
      ⟨p, hp, _, _, _⟩
    exact ⟨p, hp⟩
  rcases hsome with ⟨p, hp⟩
  unfold asofLookup
  rw [hp, Option.map_some', Option.getD_some]
  exact (raw_entry_value fuel st fi ti fvd tvd n i p hs hprim hi hp).symm

theorem raw_leaf_value (fuel : Nat) (st : Store) (ti fvd tvd : Option Int)
    (n : String) (i : Int)
    (hs : StrictHist (st.primaries n)) (hprim : st.formulas n = none)
    (hi : inIBounds none ti i = true) :
    (asofLookup (primaryHistory st n none ti fvd tvd) i).getD [] =
      (getSeries fuel st n (some i) fvd tvd).getD [] := by
  by_cases hex : ∃ k ∈ histKeys (primaryHistory st n none ti fvd tvd), k ≤ i
  · exact raw_leaf_value_ex fuel st none ti fvd tvd n i hs hprim hi hex
  · push_neg at hex
    have hno : ∀ k ∈ histKeys (primaryHistory st n none ti fvd tvd), ¬ k ≤ i := by
      intro k hk
      have := hex k hk
      omega
    have h1 : asofEntry (primaryHistory st n none ti fvd tvd) i = none :=
      asofEntry_none_keys hno
    have h2 : asofEntry (st.primaries n) i = none :=
      asofEntry_none_of_no_raw st n ti fvd tvd i hi hno
    unfold asofLookup
    rw [h1, getSeries_primary_entry fuel st n fvd tvd i hprim, h2]
    rfl

theorem completed_leaf_value (fuel1 fuel2 : Nat) (st : Store)
    (fi ti fvd tvd : Option Int) (n : String) (i mindate : Int)
    (hs : StrictHist (st.primaries n)) (hprim : st.formulas n = none)
    (hi : inIBounds fi ti i = true) (hmb : inIBounds fi ti mindate = true)
    (hmi : mindate ≤ i) :
    (asofLookup (if (histKeys (primaryHistory st n fi ti fvd tvd)).contains mindate
        then primaryHistory st n fi ti fvd tvd
        else (gapEntry (n, primaryHistory st n fi ti fvd tvd) mindate
          (getSeries fuel1 st n (some mindate) fvd tvd)).2) i).getD [] =
      (getSeries fuel2 st n (some i) fvd tvd).getD [] := by
  by_cases hex : ∃ k ∈ histKeys (primaryHistory st n fi ti fvd tvd), k ≤ i
  · have hsome : ∃ p, asofEntry (primaryHistory st n fi ti fvd tvd) i = some p := by
      rcases hex with ⟨k, hk, hki⟩
      unfold histKeys at hk
      rw [List.mem_map] at hk
      rcases hk with ⟨q, hq, hqk⟩
      rw [← hqk] at hki
      rcases asofEntry_max (primaryHistory_strict st n fi ti fvd tvd hs) hq hki with
        ⟨p, hp, _, _, _⟩
      exact ⟨p, hp⟩
    rcases hsome with ⟨p, hp⟩
    rw [raw_entry_value fuel2 st fi ti fvd tvd n i p hs hprim hi hp]
    by_cases hc : (histKeys (primaryHistory st n fi ti fvd tvd)).contains mindate = true
    · rw [if_pos hc]
      unfold asofLookup
      rw [hp]
      rfl
    · rw [if_neg hc]
      rw [getSeries_primary_entry fuel1 st n fvd tvd mindate hprim]
      cases hD : asofEntry (st.primaries n) mindate with
      | none =>
        rw [Option.map_none', gapEntry_none]
        show (asofLookup (primaryHistory st n fi ti fvd tvd) i).getD [] = p.2
        unfold asofLookup
        rw [hp]
        rfl
      | some q =>
        rw [Option.map_some']
        by_cases hts : window fvd tvd q.2 = []
        · rw [hts, gapEntry_some_nil]
          show (asofLookup (primaryHistory st n fi ti fvd tvd) i).getD [] = p.2
          unfold asofLookup
          rw [hp]
          rfl
        · rw [gapEntry_some _ _ _ hts]
          show (asofLookup ((mindate, window fvd tvd q.2) ::
            primaryHistory st n fi ti fvd tvd) i).getD [] = p.2
          unfold asofLookup
          rw [asofEntry_prepend _ i mindate _ hmi, hp]
          rfl
  · push_neg at hex
    have hno : ∀ k ∈ histKeys (primaryHistory st n fi ti fvd tvd), ¬ k ≤ i := by
      intro k hk
      have := hex k hk
      omega
    have h1 : asofEntry (primaryHistory st n fi ti fvd tvd) i = none :=
      asofEntry_none_keys hno
    have hS3 : asofEntry (st.primaries n) i = asofEntry (st.primaries n) mindate :=
      asofEntry_at_mindate st n fi ti fvd tvd i mindate hi hmb hmi hno
    have hc : ¬ (histKeys (primaryHistory st n fi ti fvd tvd)).contains mindate = true := by
      intro hc
      exact (hno mindate (List.elem_iff.mp hc)) hmi
    rw [if_neg hc]
    rw [getSeries_primary_entry fuel2 st n fvd tvd i hprim, hS3]
    rw [getSeries_primary_entry fuel1 st n fvd tvd mindate hprim]
    cases hD : asofEntry (st.primaries n) mindate with
    | none =>
      rw [Option.map_none', gapEntry_none]
      show (asofLookup (primaryHistory st n fi ti fvd tvd) i).getD [] =
        (Option.map (fun p => window fvd tvd p.2) (none : Option (Int × Series))).getD []
      unfold asofLookup
      rw [h1]
      rfl
    | some q =>
      rw [Option.map_some']
      by_cases hts : window fvd tvd q.2 = []
      · rw [hts, gapEntry_some_nil]
        show (asofLookup (primaryHistory st n fi ti fvd tvd) i).getD [] =
          (some ([] : Series)).getD []
        unfold asofLookup
        rw [h1]
        rfl
      · rw [gapEntry_some _ _ _ hts]
        show (asofLookup ((mindate, window fvd tvd q.2) ::
          primaryHistory st n fi ti fvd tvd) i).getD [] =
          (some (window fvd tvd q.2)).getD []
        unfold asofLookup
        rw [asofEntry_prepend _ i mindate _ hmi, h1]
        rfl

theorem complete_histories_start_map (fuel : Nat) (st : Store)
    (fvd tvd : Option Int) (L : List String) (H : String → Hist) (mindate : Int)
    (hmin : minL ((L.map (fun s => (s, H s))).filterMap
      (fun p => minL (histKeys p.2))) = some mindate) :
    complete_histories_start fuel st (L.map (fun s => (s, H s))) fvd tvd =
      L.map (fun s => (s,
        if (histKeys (H s)).contains mindate then H s
        else (gapEntry (s, H s) mindate
          (getSeries fuel st s (some mindate) fvd tvd)).2)) := by
  have h0 : complete_histories_start fuel st (L.map (fun s => (s, H s))) fvd tvd =
      (L.map (fun s => (s, H s))).map (fun p =>
        if (histKeys p.2).contains mindate then p
        else gapEntry p mindate (getSeries fuel st p.1 (some mindate) fvd tvd)) := by
    unfold complete_histories_start
    rw [hmin]
  rw [h0, List.map_map]
  apply List.map_congr_left
  intro s _
  simp only [Function.comp]
  by_cases hc : (histKeys (H s)).contains mindate = true
  · rw [if_pos hc, if_pos hc]
  · rw [if_neg hc, if_neg hc]
    exact Prod.ext (gapEntry_fst _ _ _) rfl

theorem findSeriesE_nonempty : ∀ (e : Expr),
    autoSites e = [] → findSeriesE e ≠ [] := by
  intro e
  induction e with
  | series n =>
    intro _
    simp [findSeriesE]
  | sadd a b iha ihb =>
    intro hauto hnil
    simp only [autoSites, List.append_eq_nil] at hauto
    simp only [findSeriesE] at hnil
    unfold dedupAppend at hnil
    rw [List.append_eq_nil] at hnil
    exact iha hauto.1 hnil.1
  | asof p sub ih =>
    intro hauto
    simp only [autoSites] at hauto
    simp only [findSeriesE]
    exact ih hauto
  | auto op =>
    intro hauto
    simp [autoSites] at hauto

theorem evalHist_eq_get (st : Store) (fuel : Nat)
    (hists : List (String × Hist)) (i : Int) (fvd tvd : Option Int) :
    ∀ (e : Expr), hasAsofE e = false → autoSites e = [] →
    (∀ n ∈ findSeriesE e,
      ((alookup hists n).bind (fun h => asofLookup h i)).getD [] =
        (getSeries fuel st n (some i) fvd tvd).getD []) →
    evalHist hists i e = evalStep (getSeries fuel st) st (some i) fvd tvd e := by
  intro e
  induction e with
  | series n =>
    intro _ _ hleaf
    have hn := hleaf n (by simp [findSeriesE])
    simp only [evalHist, evalStep]
    exact hn
  | sadd a b iha ihb =>
    intro ha hauto hleaf
    simp only [hasAsofE, Bool.or_eq_false_iff] at ha
    simp only [autoSites, List.append_eq_nil] at hauto
    simp only [evalHist, evalStep]
    rw [iha ha.1 hauto.1 (fun n hn => hleaf n (by
        simp only [findSeriesE]
        rw [dedupAppend_mem]
        exact Or.inl hn)),
      ihb ha.2 hauto.2 (fun n hn => hleaf n (by
        simp only [findSeriesE]
        rw [dedupAppend_mem]
        exact Or.inr hn))]
  | asof p sub ih =>
    intro ha
    simp [hasAsofE] at ha
  | auto op =>
    intro _ hauto
    simp [autoSites] at hauto

theorem primaryHistoryD_plain (st : Store) (n : String)
    (fi ti fvd tvd : Option Int) :
    primaryHistoryD st n fi ti fvd tvd false = primaryHistory st n fi ti fvd tvd :=
  rfl

theorem flatMap_map_keys (L : List String) (H : String → Hist) (x : Int) :
    (x ∈ (L.map (fun s => (s, H s))).flatMap (fun p => histKeys p.2)) ↔
      ∃ s ∈ L, x ∈ histKeys (H s) := by
  simp only [List.mem_flatMap, List.mem_map]
  constructor
  · rintro ⟨q, ⟨s, hsm, hq⟩, hx⟩
    subst hq
    exact ⟨s, hsm, hx⟩
  · rintro ⟨s, hsm, hx⟩
    exact ⟨(s, H s), ⟨s, hsm, rfl⟩, hx⟩

/-- Claim C1 (amended): for a registered formula whose expanded tree
contains no asof node, whose leaves are all named (primary) series, and
whose name carries no patch sub-store overlay, history over any
insertion and value bounds returns a map whose key set is exactly the
sorted deduplicated union, over the leaf series of the expanded tree,
of their insertion dates within the requested insertion bounds, and
whose value at each such date i equals get at revision date i over the
same value window. The patch emptiness is the amendment: get applies
the formula's patch overlay while the merging history path evaluates
from the leaf histories alone. -/
theorem claim1_history_consistency (fuel : Nat) (st : Store) (name : String)
    (fi ti fvd tvd : Option Int) (f tree : Expr)
    (hf : st.formulas name = some f)
    (hexp : expandE (fuel + 1) st f = some tree)
    (ha : hasAsofE tree = false)
    (hauto : autoSites tree = [])
    (hpatch : st.patchdb name = [])
    (hs : ∀ s, StrictHist (st.primaries s)) :
    ∃ hist, historyF (fuel + 1) st name fi ti fvd tvd false = some hist ∧
      histKeys hist = sortedDedup ((findSeriesE tree).flatMap
        (fun s => primaryIdates st s fi ti)) ∧
      ∀ i ∈ histKeys hist,
        getSeries (fuel + 1) st name (some i) fvd tvd = alookupT hist i := by
  have hleafprim : ∀ s ∈ findSeriesE tree, st.formulas s = none :=
    expandE_leaves st (fuel + 1) f tree hexp
  have hnodup := findSeriesE_nodup tree
  have hmapeq : ((findSeriesE tree).map (fun s =>
      (s, (historyF fuel st s fi ti fvd tvd false).getD []))) =
      (findSeriesE tree).map (fun s => (s, primaryHistory st s fi ti fvd tvd)) := by
    apply List.map_congr_left
    intro s hsm
    rw [historyF_primary (hleafprim s hsm), Option.getD_some, primaryHistoryD_plain]
  rw [historyF_formula hf, hexp]
  simp only [ha, Bool.false_eq_true, if_false]
  simp only [mergeFinish, Bool.false_eq_true, false_and, if_false]
  rw [hmapeq]
  have hauto2 : autoHists st tree fi ti fvd tvd = [] := by
    unfold autoHists
    rw [hauto]
    rfl
  rw [hauto2]
  simp only [List.nil_append]
  by_cases hcond : ((findSeriesE tree).map
      (fun s => (s, primaryHistory st s fi ti fvd tvd))) ≠ [] ∧ fi.isSome = true
  · rw [if_pos hcond]
    cases hmin : minL (((findSeriesE tree).map
        (fun s => (s, primaryHistory st s fi ti fvd tvd))).filterMap
        (fun p => minL (histKeys p.2))) with
    | none =>
      have hnil := minL_eq_none.mp hmin
      rw [List.filterMap_eq_nil_iff] at hnil
      have hempty : ∀ s ∈ findSeriesE tree,
          histKeys (primaryHistory st s fi ti fvd tvd) = [] := by
        intro s hsm
        have h1 := hnil (s, primaryHistory st s fi ti fvd tvd)
          (List.mem_map_of_mem _ hsm)
        exact minL_eq_none.mp h1
      have hsame : complete_histories_start (fuel + 1) st
          ((findSeriesE tree).map (fun s => (s, primaryHistory st s fi ti fvd tvd)))
          fvd tvd =
          (findSeriesE tree).map (fun s => (s, primaryHistory st s fi ti fvd tvd)) := by
        unfold complete_histories_start
        rw [hmin]
      rw [hsame]
      refine ⟨_, rfl, ?_, ?_⟩
      · rw [histKeys_map_eval]
        apply sortedDedup_eq_of_mem_iff
        intro x
        rw [flatMap_map_keys, List.mem_flatMap]
        constructor
        · rintro ⟨s, hsm, hx⟩
          rw [hempty s hsm] at hx
          simp at hx
        · rintro ⟨s, hsm, hx⟩
          rw [← histKeys_primaryHistory st s fi ti fvd tvd] at hx
          rw [hempty s hsm] at hx
          simp at hx
      · intro i hi
        rw [histKeys_map_eval, sortedDedup_mem, flatMap_map_keys] at hi
        rcases hi with ⟨s, hsm, hx⟩
        rw [hempty s hsm] at hx
        simp at hx
    | some mindate =>
      have hC := complete_histories_start_map (fuel + 1) st fvd tvd
        (findSeriesE tree) (fun s => primaryHistory st s fi ti fvd tvd) mindate hmin
      have hmmem : ∃ s ∈ findSeriesE tree,
          mindate ∈ histKeys (primaryHistory st s fi ti fvd tvd) := by
        have h1 := minL_mem hmin
        rw [List.mem_filterMap] at h1
        rcases h1 with ⟨p, hp, hpmin⟩
        rw [List.mem_map] at hp
        rcases hp with ⟨s, hsm, hq⟩
        subst hq
        exact ⟨s, hsm, minL_mem hpmin⟩
      have hmb : inIBounds fi ti mindate = true := by
        rcases hmmem with ⟨s, hsm, hx⟩
        rw [histKeys_primaryHistory] at hx
        exact (primaryIdates_mem.mp hx).2
      refine ⟨_, rfl, ?_, ?_⟩
      · rw [histKeys_map_eval]
        apply sortedDedup_eq_of_mem_iff
        intro x
        rw [complete_histories_start_keys, flatMap_map_keys, List.mem_flatMap]
        constructor
        · rintro ⟨s, hsm, hx⟩
          rw [histKeys_primaryHistory] at hx
          exact ⟨s, hsm, hx⟩
        · rintro ⟨s, hsm, hx⟩
          rw [← histKeys_primaryHistory st s fi ti fvd tvd] at hx
          exact ⟨s, hsm, hx⟩
      · intro i hi
        rw [histKeys_map_eval] at hi
        have hiF := (sortedDedup_mem _ i).mp hi
        have hiK : ∃ s ∈ findSeriesE tree,
            i ∈ histKeys (primaryHistory st s fi ti fvd tvd) := by
          rw [complete_histories_start_keys, flatMap_map_keys] at hiF
          exact hiF
        have hib : inIBounds fi ti i = true := by
          rcases hiK with ⟨s, hsm, hx⟩
          rw [histKeys_primaryHistory] at hx
          exact (primaryIdates_mem.mp hx).2
        have hmi : mindate ≤ i := by
          rcases hiK with ⟨s, hsm, hx⟩
          cases hm1 : minL (histKeys (primaryHistory st s fi ti fvd tvd)) with
          | none =>
            rw [minL_eq_none.mp hm1] at hx
            simp at hx
          | some m1 =>
            have h1 : m1 ≤ i := minL_le hm1 i hx
            have h2 : mindate ≤ m1 := by
              apply minL_le hmin
              rw [List.mem_filterMap]
              exact ⟨(s, primaryHistory st s fi ti fvd tvd),
                List.mem_map_of_mem _ hsm, hm1⟩
            omega
        rw [getSeries_formula hf hexp hpatch]
        have hval := alookupT_map_self
          (sortedDedup ((complete_histories_start (fuel + 1) st
            ((findSeriesE tree).map (fun s => (s, primaryHistory st s fi ti fvd tvd)))
            fvd tvd).flatMap (fun p => histKeys p.2)))
          (fun j => evalHist (complete_histories_start (fuel + 1) st
            ((findSeriesE tree).map (fun s => (s, primaryHistory st s fi ti fvd tvd)))
            fvd tvd) j tree)
          (sortedDedup_nodup _) i hi
        rw [hval]
        congr 1
        rw [hC]
        refine (evalHist_eq_get st fuel _ i fvd tvd tree ha hauto ?_).symm
        intro n hn
        have halook := alookup_map_self (findSeriesE tree)
          (fun s => if (histKeys (primaryHistory st s fi ti fvd tvd)).contains mindate
            then primaryHistory st s fi ti fvd tvd
            else (gapEntry (s, primaryHistory st s fi ti fvd tvd) mindate
              (getSeries (fuel + 1) st s (some mindate) fvd tvd)).2)
          hnodup n hn
        rw [halook]
        exact completed_leaf_value (fuel + 1) fuel st fi ti fvd tvd n i mindate
          (hs n) (hleafprim n hn) hib hmb hmi
  · rw [if_neg hcond]
    have hLne : findSeriesE tree ≠ [] := findSeriesE_nonempty tree hauto
    have hfie : fi = none := by
      by_contra hne
      apply hcond
      constructor
      · intro hmapnil
        rw [List.map_eq_nil_iff] at hmapnil
        exact hLne hmapnil
      · exact Option.isSome_iff_ne_none.mpr hne
    subst hfie
    refine ⟨_, rfl, ?_, ?_⟩
    · rw [histKeys_map_eval]
      apply sortedDedup_eq_of_mem_iff
      intro x
      rw [flatMap_map_keys, List.mem_flatMap]
      constructor
      · rintro ⟨s, hsm, hx⟩
        rw [histKeys_primaryHistory] at hx
        exact ⟨s, hsm, hx⟩
      · rintro ⟨s, hsm, hx⟩
        rw [← histKeys_primaryHistory st s none ti fvd tvd] at hx
        exact ⟨s, hsm, hx⟩
    · intro i hi
      rw [histKeys_map_eval] at hi
      have hiF := (sortedDedup_mem _ i).mp hi
      have hib : inIBounds (none : Option Int) ti i = true := by
        rw [flatMap_map_keys] at hiF
        rcases hiF with ⟨s, hsm, hx⟩
        rw [histKeys_primaryHistory] at hx
        exact (primaryIdates_mem.mp hx).2
      rw [getSeries_formula hf hexp hpatch]
      have hval := alookupT_map_self
        (sortedDedup ((((findSeriesE tree).map
          (fun s => (s, primaryHistory st s none ti fvd tvd)))).flatMap
          (fun p => histKeys p.2)))
        (fun j => evalHist ((findSeriesE tree).map
          (fun s => (s, primaryHistory st s none ti fvd tvd))) j tree)
        (sortedDedup_nodup _) i hi
      rw [hval]
      congr 1
      refine (evalHist_eq_get st fuel _ i fvd tvd tree ha hauto ?_).symm
      intro n hn
      have halook := alookup_map_self (findSeriesE tree)
        (fun s => primaryHistory st s none ti fvd tvd) hnodup n hn
      rw [halook]
      exact raw_leaf_value fuel st ti fvd tvd n i (hs n) (hleafprim n hn) hib

/-- Counterexample store for claim C1 as stated: a formula f over one
primary leaf x, with a patch sub-store overlay registered under f. -/
def egStoreC1x : Store :=
  ⟨fun n => if n = "x" then [((1 : Int), [((0 : Int), (1 : Int))])] else [],
   fun n => if n = "f" then some (.series "x") else none,
   fun _ => none,
   fun n => if n = "f" then [((1 : Int), [((0 : Int), (9 : Int))])] else [],
   fun _ => none, fun _ => none,
   fun _ _ _ _ => []⟩

/-- Counterexample to claim C1 as stated: f expands to a plain series
leaf (no asof), yet the history map at insertion date 1 holds the
evaluated leaf value while get at revision date 1 applies f's patch
overlay, so history(f)[1] differs from get(f, revision_date=1). -/
theorem claim1_counterexample :
    historyF 2 egStoreC1x "f" none none none none false =
      some [((1 : Int), [((0 : Int), (1 : Int))])] ∧
    getSeries 2 egStoreC1x "f" (some 1) none none =
      some [((0 : Int), (9 : Int))] := by
  refine ⟨by decide, by decide⟩

/-- Concrete store for the amended claim C1 witness: formula f adds
the primaries x (updated at 1) and y (updated at 2), no patch
overlays. -/
def egStoreC1w : Store :=
  ⟨fun n => if n = "x" then [((1 : Int), [((0 : Int), (1 : Int))])]
            else if n = "y" then [((2 : Int), [((0 : Int), (2 : Int))])]
            else [],
   fun n => if n = "f" then some (.sadd (.series "x") (.series "y")) else none,
   fun _ => none, fun _ => [], fun _ => none, fun _ => none,
   fun _ _ _ _ => []⟩

theorem egStoreC1w_strict : ∀ s, StrictHist (egStoreC1w.primaries s) := by
  intro s
  simp only [egStoreC1w]
  unfold StrictHist
  split_ifs <;> decide

/-- Witness for the amended claim C1 on the two-leaf store, with a
from_insertion_date floor so the completion step runs. -/
theorem claim1_history_consistency_witness :
    ∃ hist, historyF 1 egStoreC1w "f" (some 0) none none none false = some hist ∧
      histKeys hist =
        sortedDedup ((findSeriesE (.sadd (.series "x") (.series "y"))).flatMap
          (fun s => primaryIdates egStoreC1w s (some 0) none)) ∧
      ∀ i ∈ histKeys hist,
        getSeries 1 egStoreC1w "f" (some i) none none = alookupT hist i :=
  claim1_history_consistency 0 egStoreC1w "f" (some 0) none none none
    (.sadd (.series "x") (.series "y")) (.sadd (.series "x") (.series "y"))
    rfl rfl rfl rfl rfl egStoreC1w_strict

/-- Height of an expression, the fuel needed to re-read its
serialization. -/
def heightE : Expr → Nat
  | .series _ => 1
  | .sadd a b => max (heightE a) (heightE b) + 1
  | .asof _ sub => heightE sub + 1
  | .auto _ => 1

/-- Value of a most-significant-first digit string. -/
def digitsVal (l : List Char) : Nat :=
  l.foldl (fun acc c => 10 * acc + digitVal c) 0

/-- Integer value of a rendered integer (inverse of intChars on its
image). -/
def charsInt (cs : List Char) : Int :=
  match cs with
  | [] => 0
  | c :: ds => if c = '-' then -(digitsVal ds : Int) else (digitsVal cs : Int)

/-- Reader for the serialized syntax (the relevant fragment of the
psyl parser): returns the parsed expression and the unconsumed
remainder. Fuel bounds the nesting depth; the round-trip against serE
below establishes that the serialization is injective on well-formed
expressions. -/
def unserE : Nat → List Char → Option (Expr × List Char)
  | 0, _ => none
  | fuel + 1, cs =>
    match cs with
    | '(' :: cs1 =>
      match cs1.dropWhile tokOK with
      | ')' :: rest => some (.auto (String.mk (cs1.takeWhile tokOK)), rest)
      | ' ' :: cs2 =>
        if cs1.takeWhile tokOK = "series".data then
          match cs2 with
          | '"' :: cs3 =>
            match cs3.dropWhile (fun c => c ≠ '"') with
            | '"' :: ')' :: rest =>
              some (.series (String.mk (cs3.takeWhile (fun c => c ≠ '"'))), rest)
            | _ => none
          | _ => none
        else if cs1.takeWhile tokOK = "add".data then
          match unserE fuel cs2 with
          | some (a, ' ' :: cs3) =>
            match unserE fuel cs3 with
            | some (b, ')' :: rest) => some (.sadd a b, rest)
            | _ => none
          | _ => none
        else if cs1.takeWhile tokOK = "asof".data then
          match cs2 with
          | '(' :: cs3 =>
            if cs3.takeWhile tokOK = "date".data then
              match cs3.dropWhile tokOK with
              | ' ' :: cs4 =>
                match cs4.dropWhile (fun c => c ≠ ')') with
                | ')' :: ' ' :: cs5 =>
                  match unserE fuel cs5 with
                  | some (sub, ')' :: rest) =>
                    some (.asof (charsInt (cs4.takeWhile (fun c => c ≠ ')'))) sub,
                      rest)
                  | _ => none
                | _ => none
              | _ => none
            else none
          | _ => none
        else none
      | _ => none
    | _ => none

theorem takeWhile_kw (p : Char → Bool) : ∀ (kw : List Char) (c : Char)
    (tail : List Char), (∀ x ∈ kw, p x = true) → p c = false →
    (kw ++ c :: tail).takeWhile p = kw := by
  intro kw
  induction kw with
  | nil =>
    intro c tail _ hc
    rw [List.nil_append, List.takeWhile_cons, hc]
    rfl
  | cons k ks ih =>
    intro c tail hall hc
    rw [List.cons_append, List.takeWhile_cons, hall k (List.mem_cons_self _ _)]
    rw [ih c tail (fun x hx => hall x (List.mem_cons_of_mem _ hx)) hc]
    rfl

theorem dropWhile_kw (p : Char → Bool) : ∀ (kw : List Char) (c : Char)
    (tail : List Char), (∀ x ∈ kw, p x = true) → p c = false →
    (kw ++ c :: tail).dropWhile p = c :: tail := by
  intro kw
  induction kw with
  | nil =>
    intro c tail _ hc
    rw [List.nil_append, List.dropWhile_cons, hc]
    rfl
  | cons k ks ih =>
    intro c tail hall hc
    rw [List.cons_append, List.dropWhile_cons, hall k (List.mem_cons_self _ _)]
    exact ih c tail (fun x hx => hall x (List.mem_cons_of_mem _ hx)) hc

theorem digitVal_digitChar (d : Nat) (hd : d < 10) :
    digitVal (digitChar d) = d := by
  interval_cases d <;> rfl

theorem digitChar_mem : ∀ (d : Nat),
    digitChar d ∈ ['0', '1', '2', '3', '4', '5', '6', '7', '8', '9']
  | 0 => by decide
  | 1 => by decide
  | 2 => by decide
  | 3 => by decide
  | 4 => by decide
  | 5 => by decide
  | 6 => by decide
  | 7 => by decide
  | 8 => by decide
  | _ + 9 => by
    show ('9' : Char) ∈ _
    decide

theorem digitChar_ok (d : Nat) :
    tokOK (digitChar d) = true ∧ digitChar d ≠ ')' ∧ digitChar d ≠ '"' ∧
      digitChar d ≠ '-' ∧ digitChar d ≠ ' ' := by
  have h := digitChar_mem d
  revert h
  generalize digitChar d = c
  intro h
  fin_cases h <;> decide

theorem natChars_spec : ∀ (n : Nat),
    (∀ c ∈ natChars n, ∃ d, c = digitChar d) ∧
    digitsVal (natChars n) = n ∧
    ∃ d ds, natChars n = digitChar d :: ds := by
  intro n
  induction n using Nat.strong_induction_on with
  | _ n ih =>
    by_cases h : n < 10
    · rw [natChars.eq_def, dif_pos h]
      refine ⟨?_, ?_, n, [], rfl⟩
      · intro c hc
        rw [List.mem_singleton] at hc
        exact ⟨n, hc⟩
      · show digitsVal [digitChar n] = n
        unfold digitsVal
        simp only [List.foldl_cons, List.foldl_nil]
        rw [digitVal_digitChar n h]
        omega
    · rw [natChars.eq_def, dif_neg h]
      have hlt : n / 10 < n := Nat.div_lt_self (by omega) (by omega)
      rcases ih (n / 10) hlt with ⟨hmem, hval, d, ds, hcons⟩
      refine ⟨?_, ?_, ?_⟩
      · intro c hc
        rw [List.mem_append, List.mem_singleton] at hc
        rcases hc with hc | hc
        · exact hmem c hc
        · exact ⟨n % 10, hc⟩
      · unfold digitsVal at hval ⊢
        rw [List.foldl_append]
        simp only [List.foldl_cons, List.foldl_nil]
        rw [hval, digitVal_digitChar (n % 10) (Nat.mod_lt n (by omega))]
        omega
      · exact ⟨d, ds ++ [digitChar (n % 10)], by rw [hcons]; rfl⟩

theorem intChars_ok (p : Int) : ∀ c ∈ intChars p, tokOK c = true ∧ c ≠ ')' := by
  intro c hc
  unfold intChars at hc
  by_cases h : p < 0
  · rw [if_pos h, List.mem_cons] at hc
    rcases hc with hc | hc
    · subst hc
      exact ⟨by decide, by decide⟩
    · rcases (natChars_spec _).1 c hc with ⟨d, hd⟩
      subst hd
      exact ⟨(digitChar_ok d).1, (digitChar_ok d).2.1⟩
  · rw [if_neg h] at hc
    rcases (natChars_spec _).1 c hc with ⟨d, hd⟩
    subst hd
    exact ⟨(digitChar_ok d).1, (digitChar_ok d).2.1⟩

theorem charsInt_intChars (p : Int) : charsInt (intChars p) = p := by
  unfold intChars
  by_cases h : p < 0
  · rw [if_pos h]
    show (if ('-' : Char) = '-' then -(digitsVal (natChars p.natAbs) : Int)
      else (digitsVal ('-' :: natChars p.natAbs) : Int)) = p
    rw [if_pos rfl, (natChars_spec p.natAbs).2.1]
    omega
  · rw [if_neg h]
    rcases (natChars_spec p.natAbs).2.2 with ⟨d, ds, hcons⟩
    rw [hcons]
    show (if digitChar d = '-' then -(digitsVal ds : Int)
      else (digitsVal (digitChar d :: ds) : Int)) = p
    rw [if_neg (digitChar_ok d).2.2.2.1, ← hcons, (natChars_spec p.natAbs).2.1]
    omega

theorem unserE_round : ∀ (e : Expr), goodE e = true →
    ∀ (fuel : Nat) (rest : List Char), heightE e ≤ fuel →
    unserE fuel (serE e ++ rest) = some (e, rest) := by
  intro e
  induction e with
  | series n =>
    intro hg fuel rest hf
    cases fuel with
    | zero => simp [heightE] at hf
    | succ fuel =>
      have hq : ∀ x ∈ n.data, (fun c => decide (c ≠ '"')) x = true := by
        simp only [goodE] at hg
        rw [List.all_eq_true] at hg
        intro x hx
        exact hg x hx
      have hshape : serE (.series n) ++ rest =
          '(' :: 's' :: 'e' :: 'r' :: 'i' :: 'e' :: 's' :: ' ' :: '"' ::
            (n.data ++ '"' :: ')' :: rest) := by
        show '(' :: 's' :: 'e' :: 'r' :: 'i' :: 'e' :: 's' :: ' ' :: '"' ::
            ((n.data ++ '"' :: ')' :: []) ++ rest) = _
        rw [List.append_assoc]
        rfl
      rw [hshape]
      have hdW : ('s' :: 'e' :: 'r' :: 'i' :: 'e' :: 's' :: ' ' :: '"' ::
          (n.data ++ '"' :: ')' :: rest)).dropWhile tokOK =
            ' ' :: '"' :: (n.data ++ '"' :: ')' :: rest) :=
        dropWhile_kw tokOK "series".data ' ' ('"' :: (n.data ++ '"' :: ')' :: rest))
          (by decide) (by decide)
      have htW : ('s' :: 'e' :: 'r' :: 'i' :: 'e' :: 's' :: ' ' :: '"' ::
          (n.data ++ '"' :: ')' :: rest)).takeWhile tokOK = "series".data :=
        takeWhile_kw tokOK "series".data ' ' ('"' :: (n.data ++ '"' :: ')' :: rest))
          (by decide) (by decide)
      have htW2 : (n.data ++ '"' :: ')' :: rest).takeWhile (fun c => c ≠ '"') =
          n.data :=
        takeWhile_kw _ n.data '"' (')' :: rest) hq (by decide)
      have hdW2 : (n.data ++ '"' :: ')' :: rest).dropWhile (fun c => c ≠ '"') =
          '"' :: ')' :: rest :=
        dropWhile_kw _ n.data '"' (')' :: rest) hq (by decide)
      simp only [unserE, hdW, htW, htW2, hdW2]
      simp only [if_pos]
  | sadd a b iha ihb =>
    intro hg fuel rest hf
    cases fuel with
    | zero => simp [heightE] at hf
    | succ fuel =>
      simp only [goodE, Bool.and_eq_true] at hg
      simp only [heightE] at hf
      have hm : max (heightE a) (heightE b) ≤ fuel := by omega
      have hfa : heightE a ≤ fuel := le_trans (le_max_left _ _) hm
      have hfb : heightE b ≤ fuel := le_trans (le_max_right _ _) hm
      have hshape : serE (.sadd a b) ++ rest =
          '(' :: 'a' :: 'd' :: 'd' :: ' ' ::
            (serE a ++ ' ' :: (serE b ++ ')' :: rest)) := by
        show '(' :: 'a' :: 'd' :: 'd' :: ' ' ::
            ((serE a ++ ' ' :: (serE b ++ ')' :: [])) ++ rest) = _
        simp [List.append_assoc]
      rw [hshape]
      have hdW : ('a' :: 'd' :: 'd' :: ' ' ::
          (serE a ++ ' ' :: (serE b ++ ')' :: rest))).dropWhile tokOK =
            ' ' :: (serE a ++ ' ' :: (serE b ++ ')' :: rest)) :=
        dropWhile_kw tokOK "add".data ' ' (serE a ++ ' ' :: (serE b ++ ')' :: rest))
          (by decide) (by decide)
      have htW : ('a' :: 'd' :: 'd' :: ' ' ::
          (serE a ++ ' ' :: (serE b ++ ')' :: rest))).takeWhile tokOK = "add".data :=
        takeWhile_kw tokOK "add".data ' ' (serE a ++ ' ' :: (serE b ++ ')' :: rest))
          (by decide) (by decide)
      have ha := iha hg.1 fuel (' ' :: (serE b ++ ')' :: rest)) hfa
      have hb := ihb hg.2 fuel (')' :: rest) hfb
      simp only [unserE, hdW, htW, ha, hb]
      simp only [if_neg (by decide : ¬ ("add".data = "series".data)), if_pos]
  | asof p sub ih =>
    intro hg fuel rest hf
    cases fuel with
    | zero => simp [heightE] at hf
    | succ fuel =>
      simp only [goodE] at hg
      simp only [heightE] at hf
      have hfs : heightE sub ≤ fuel := by omega
      have hq1 : ∀ x ∈ intChars p, tokOK x = true := fun x hx => (intChars_ok p x hx).1
      have hq2 : ∀ x ∈ intChars p, (fun c => decide (c ≠ ')')) x = true := by
        intro x hx
        simp only [decide_eq_true_eq]
        exact (intChars_ok p x hx).2
      have hshape : serE (.asof p sub) ++ rest =
          '(' :: 'a' :: 's' :: 'o' :: 'f' :: ' ' ::
            '(' :: 'd' :: 'a' :: 't' :: 'e' :: ' ' ::
            (intChars p ++ ')' :: ' ' :: (serE sub ++ ')' :: rest)) := by
        show '(' :: 'a' :: 's' :: 'o' :: 'f' :: ' ' ::
            '(' :: 'd' :: 'a' :: 't' :: 'e' :: ' ' ::
            ((intChars p ++ ')' :: ' ' :: (serE sub ++ ')' :: [])) ++ rest) = _
        simp [List.append_assoc]
      rw [hshape]
      have hdW : ('a' :: 's' :: 'o' :: 'f' :: ' ' ::
          '(' :: 'd' :: 'a' :: 't' :: 'e' :: ' ' ::
          (intChars p ++ ')' :: ' ' :: (serE sub ++ ')' :: rest))).dropWhile tokOK =
            ' ' :: ('(' :: 'd' :: 'a' :: 't' :: 'e' :: ' ' ::
              (intChars p ++ ')' :: ' ' :: (serE sub ++ ')' :: rest))) :=
        dropWhile_kw tokOK "asof".data ' ' ('(' :: 'd' :: 'a' :: 't' :: 'e' :: ' ' ::
          (intChars p ++ ')' :: ' ' :: (serE sub ++ ')' :: rest)))
          (by decide) (by decide)
      have htW : ('a' :: 's' :: 'o' :: 'f' :: ' ' ::
          '(' :: 'd' :: 'a' :: 't' :: 'e' :: ' ' ::
          (intChars p ++ ')' :: ' ' :: (serE sub ++ ')' :: rest))).takeWhile tokOK =
            "asof".data :=
        takeWhile_kw tokOK "asof".data ' ' ('(' :: 'd' :: 'a' :: 't' :: 'e' :: ' ' ::
          (intChars p ++ ')' :: ' ' :: (serE sub ++ ')' :: rest)))
          (by decide) (by decide)
      have htWd : ('d' :: 'a' :: 't' :: 'e' :: ' ' ::
          (intChars p ++ ')' :: ' ' :: (serE sub ++ ')' :: rest))).takeWhile tokOK =
            "date".data :=
        takeWhile_kw tokOK "date".data ' '
          (intChars p ++ ')' :: ' ' :: (serE sub ++ ')' :: rest))
          (by decide) (by decide)
      have hdWd : ('d' :: 'a' :: 't' :: 'e' :: ' ' ::
          (intChars p ++ ')' :: ' ' :: (serE sub ++ ')' :: rest))).dropWhile tokOK =
            ' ' :: (intChars p ++ ')' :: ' ' :: (serE sub ++ ')' :: rest)) :=
        dropWhile_kw tokOK "date".data ' '
          (intChars p ++ ')' :: ' ' :: (serE sub ++ ')' :: rest))
          (by decide) (by decide)
      have htWn : (intChars p ++ ')' :: ' ' :: (serE sub ++ ')' :: rest)).takeWhile
          (fun c => c ≠ ')') = intChars p :=
        takeWhile_kw _ (intChars p) ')' (' ' :: (serE sub ++ ')' :: rest)) hq2
          (by decide)
      have hdWn : (intChars p ++ ')' :: ' ' :: (serE sub ++ ')' :: rest)).dropWhile
          (fun c => c ≠ ')') = ')' :: ' ' :: (serE sub ++ ')' :: rest) :=
        dropWhile_kw _ (intChars p) ')' (' ' :: (serE sub ++ ')' :: rest)) hq2
          (by decide)
      have hsub := ih hg fuel (')' :: rest) hfs
      simp only [unserE, hdW, htW, htWd, hdWd, htWn, hdWn, hsub]
      simp only [if_neg (by decide : ¬ ("asof".data = "series".data)),
        if_neg (by decide : ¬ ("asof".data = "add".data)), if_pos]
      rw [charsInt_intChars]
  | auto op =>
    intro hg fuel rest hf
    cases fuel with
    | zero => simp [heightE] at hf
    | succ fuel =>
      simp only [goodE] at hg
      rw [List.all_eq_true] at hg
      have hshape : serE (.auto op) ++ rest = '(' :: (op.data ++ ')' :: rest) := by
        show '(' :: ((op.data ++ ')' :: []) ++ rest) = _
        rw [List.append_assoc]
        rfl
      rw [hshape]
      have hdW : (op.data ++ ')' :: rest).dropWhile tokOK = ')' :: rest :=
        dropWhile_kw tokOK op.data ')' rest hg (by decide)
      have htW : (op.data ++ ')' :: rest).takeWhile tokOK = op.data :=
        takeWhile_kw tokOK op.data ')' rest hg (by decide)
      simp only [unserE, hdW, htW]

theorem serE_inj (e1 e2 : Expr) (h1 : goodE e1 = true) (h2 : goodE e2 = true)
    (h : serE e1 = serE e2) : e1 = e2 := by
  have r1 := unserE_round e1 h1 (heightE e1 + heightE e2) [] (by omega)
  have r2 := unserE_round e2 h2 (heightE e1 + heightE e2) [] (by omega)
  rw [h, r2] at r1
  injection r1 with r3
  injection r3 with r4 r5
  exact r4.symm

theorem expandE_congr : ∀ (fuel : Nat) (st st' : Store) (e : Expr),
    (∀ n ∈ touchedNames fuel st e, st'.formulas n = st.formulas n) →
    expandE fuel st' e = expandE fuel st e := by
  intro fuel
  induction fuel with
  | zero =>
    intro st st' e
    induction e with
    | series n =>
      intro h
      have hn : st'.formulas n = st.formulas n := by
        apply h
        cases hf : st.formulas n with
        | none => simp [touchedNames, touchedStep, hf]
        | some f => simp [touchedNames, touchedStep, hf]
      show expandStep (fun _ => none) st' (.series n) =
        expandStep (fun _ => none) st (.series n)
      simp only [expandStep, hn]
    | sadd a b iha ihb =>
      intro h
      have ha : expandStep (fun _ => none) st' a =
          expandStep (fun _ => none) st a :=
        iha (fun n hn => h n (by
          simp only [touchedNames, touchedStep, List.mem_append]
          exact Or.inl hn))
      have hb : expandStep (fun _ => none) st' b =
          expandStep (fun _ => none) st b :=
        ihb (fun n hn => h n (by
          simp only [touchedNames, touchedStep, List.mem_append]
          exact Or.inr hn))
      show expandStep (fun _ => none) st' (.sadd a b) =
        expandStep (fun _ => none) st (.sadd a b)
      simp only [expandStep, ha, hb]
    | asof p sub ih =>
      intro h
      have hsub : expandStep (fun _ => none) st' sub =
          expandStep (fun _ => none) st sub :=
        ih (fun n hn => h n (by
          simp only [touchedNames, touchedStep]
          exact hn))
      show expandStep (fun _ => none) st' (.asof p sub) =
        expandStep (fun _ => none) st (.asof p sub)
      simp only [expandStep, hsub]
    | auto op =>
      intro _
      rfl
  | succ fuel ihf =>
    intro st st' e
    induction e with
    | series n =>
      intro h
      have hn : st'.formulas n = st.formulas n := by
        apply h
        cases hf : st.formulas n with
        | none => simp [touchedNames, touchedStep, hf]
        | some f => simp [touchedNames, touchedStep, hf]
      show expandStep (expandE fuel st') st' (.series n) =
        expandStep (expandE fuel st) st (.series n)
      simp only [expandStep, hn]
      cases hf : st.formulas n with
      | none => rfl
      | some f =>
        have ht : touchedNames (fuel + 1) st (.series n) =
            n :: touchedNames fuel st f := by
          simp [touchedNames, touchedStep, hf]
        apply ihf
        intro m hm
        apply h
        rw [ht]
        exact List.mem_cons_of_mem _ hm
    | sadd a b iha ihb =>
      intro h
      have ha : expandStep (expandE fuel st') st' a =
          expandStep (expandE fuel st) st a :=
        iha (fun n hn => h n (by
          simp only [touchedNames, touchedStep, List.mem_append]
          exact Or.inl hn))
      have hb : expandStep (expandE fuel st') st' b =
          expandStep (expandE fuel st) st b :=
        ihb (fun n hn => h n (by
          simp only [touchedNames, touchedStep, List.mem_append]
          exact Or.inr hn))
      show expandStep (expandE fuel st') st' (.sadd a b) =
        expandStep (expandE fuel st) st (.sadd a b)
      simp only [expandStep, ha, hb]
    | asof p sub ih =>
      intro h
      have hsub : expandStep (expandE fuel st') st' sub =
          expandStep (expandE fuel st) st sub :=
        ih (fun n hn => h n (by
          simp only [touchedNames, touchedStep]
          exact hn))
      show expandStep (expandE fuel st') st' (.asof p sub) =
        expandStep (expandE fuel st) st (.asof p sub)
      simp only [expandStep, hsub]
    | auto op =>
      intro _
      rfl

/-- Claim C8 (amended): the hash stored at registration is the sha1 of
the serialized fully-expanded tree; re-registering the same definition
(one that does not reference its own name) stores the same hash again;
and after an edit of a referenced sub-formula, the parent's recomputed
live hash agrees with the stored one exactly when the edit left the
parent's expansion unchanged — so an edit preserving the expansion,
such as re-pointing a reference through an alias with the same
expansion, keeps the parent's hash. -/
theorem claim8_content_hash (fuel : Nat) (st st1 stE : Store) (name mid : String)
    (tree ex : Expr)
    (hexp : expandE fuel st tree = some ex)
    (hreg : registerFormulaE fuel st name tree = some st1)
    (hname : name ∉ touchedNames fuel st tree)
    (hmid : ∀ n, n ≠ mid → stE.formulas n = st1.formulas n)
    (hnm : name ≠ mid) :
    st1.contenthash name = some (sha1 (String.mk (serE ex))) ∧
    (∃ st2, registerFormulaE fuel st1 name tree = some st2 ∧
      st2.contenthash name = st1.contenthash name) ∧
    (∀ ex', expandE fuel stE tree = some ex' →
      goodE ex = true → goodE ex' = true →
      (live_content_hash fuel stE name = st1.contenthash name ↔
        ex' = ex)) := by
  unfold registerFormulaE at hreg
  rw [hexp, Option.map_some'] at hreg
  injection hreg with hst1
  subst hst1
  have hagree : ∀ n ∈ touchedNames fuel st tree,
      (if n = name then some tree else st.formulas n) = st.formulas n := by
    intro n hn
    rw [if_neg]
    intro he
    subst he
    exact hname hn
  have hch : (if name = name then some (sha1 (String.mk (serE ex)))
      else st.contenthash name) = some (sha1 (String.mk (serE ex))) := by
    rw [if_pos rfl]
  refine ⟨hch, ?_, ?_⟩
  · have hE1 : expandE fuel
        { st with
          formulas := fun n => if n = name then some tree else st.formulas n,
          contenthash := fun n => if n = name then
            some (sha1 (String.mk (serE ex))) else st.contenthash n } tree =
        some ex := by
      rw [expandE_congr fuel st _ tree hagree]
      exact hexp
    unfold registerFormulaE
    rw [hE1, Option.map_some']
    refine ⟨_, rfl, ?_⟩
    show (if name = name then some (sha1 (String.mk (serE ex))) else _) =
      (if name = name then some (sha1 (String.mk (serE ex))) else _)
    rw [if_pos rfl, if_pos rfl]
  · intro ex' hexpE hg hg'
    have hfE : stE.formulas name = some tree := by
      rw [hmid name hnm]
      show (if name = name then some tree else st.formulas name) = some tree
      rw [if_pos rfl]
    unfold live_content_hash
    rw [hfE]
    show (expandE fuel stE tree).map (fun e => sha1 (String.mk (serE e))) =
        (if name = name then some (sha1 (String.mk (serE ex)))
          else st.contenthash name) ↔ ex' = ex
    rw [hexpE, Option.map_some', if_pos rfl]
    constructor
    · intro hh
      injection hh with hh2
      unfold sha1 at hh2
      injection hh2 with hser
      exact serE_inj ex' ex hg' hg hser
    · intro he
      subst he
      rfl

/-- Counterexample stores for claim C8 as stated: mid is first defined
as (series bot); the edit re-points mid to the alias midalias, itself
defined as (series bot), so top's expansion — and hence its hash — is
unchanged although mid's definition changed and top's text did not. -/
def egStoreC8a : Store :=
  ⟨fun _ => [],
   fun n => if n = "top" then some (.series "mid")
            else if n = "mid" then some (.series "bot")
            else if n = "midalias" then some (.series "bot")
            else none,
   fun _ => none, fun _ => [], fun _ => none, fun _ => none,
   fun _ _ _ _ => []⟩

/-- The edited registry: only mid's definition differs from
egStoreC8a. -/
def egStoreC8b : Store :=
  ⟨fun _ => [],
   fun n => if n = "top" then some (.series "mid")
            else if n = "mid" then some (.series "midalias")
            else if n = "midalias" then some (.series "bot")
            else none,
   fun _ => none, fun _ => [], fun _ => none, fun _ => none,
   fun _ _ _ _ => []⟩

/-- Counterexample to claim C8 as stated: mid's definition really
changed, top's text did not, and top's content hash is identical
before and after the edit. -/
theorem claim8_counterexample :
    egStoreC8a.formulas "mid" ≠ egStoreC8b.formulas "mid" ∧
    egStoreC8a.formulas "top" = egStoreC8b.formulas "top" ∧
    live_content_hash 3 egStoreC8b "top" = live_content_hash 3 egStoreC8a "top" ∧
    (live_content_hash 3 egStoreC8a "top").isSome = true := by
  refine ⟨by decide, by decide, by decide, by decide⟩

/-- Base registry for the claim C8 witness: one formula mid over the
primary bot. -/
def egStoreC8w : Store :=
  ⟨fun _ => [],
   fun n => if n = "mid" then some (.series "bot") else none,
   fun _ => none, fun _ => [], fun _ => none, fun _ => none,
   fun _ _ _ _ => []⟩

/-- The registry after registering top = (series mid): stored formula
and content hash of the expansion (series bot). -/
def egStoreC8w1 : Store :=
  { egStoreC8w with
    formulas := fun n => if n = "top" then some (.series "mid")
      else egStoreC8w.formulas n,
    contenthash := fun n => if n = "top" then
        some (sha1 (String.mk (serE (.series "bot"))))
      else egStoreC8w.contenthash n }

/-- The registry after editing mid to point at another primary. -/
def egStoreC8wE : Store :=
  { egStoreC8w1 with
    formulas := fun n => if n = "mid" then some (.series "bot2")
      else egStoreC8w1.formulas n }

/-- Witness for the amended claim C8 on the concrete
top-over-mid-over-bot registry. -/
theorem claim8_content_hash_witness :
    egStoreC8w1.contenthash "top" =
      some (sha1 (String.mk (serE (.series "bot")))) ∧
    (∃ st2, registerFormulaE 2 egStoreC8w1 "top" (.series "mid") = some st2 ∧
      st2.contenthash "top" = egStoreC8w1.contenthash "top") ∧
    (∀ ex', expandE 2 egStoreC8wE (.series "mid") = some ex' →
      goodE (.series "bot") = true → goodE ex' = true →
      (live_content_hash 2 egStoreC8wE "top" = egStoreC8w1.contenthash "top" ↔
        ex' = .series "bot")) :=
  claim8_content_hash 2 egStoreC8w egStoreC8w1 egStoreC8wE "top" "mid"
    (.series "mid") (.series "bot") rfl rfl (by decide)
    (by
      intro n hn
      show (if n = "mid" then some (.series "bot2")
        else egStoreC8w1.formulas n) = egStoreC8w1.formulas n
      rw [if_neg hn])
    (by decide)

/-! The generic s-expression world of evaluator.py: trees as psyl
parses them, with symbol, string and number atoms. -/

/-- Atoms of the psyl expression trees. -/
inductive Atom : Type
  | sym (s : String)
  | str (s : String)
  | num (n : Int)
  deriving DecidableEq, Repr

/-- Parsed psyl trees (evaluator.py operates on these). -/
inductive PTree : Type
  | atom (a : Atom)
  | node (items : List PTree)

/-- Runtime values of the evaluators restricted to scalar results (the
pandas objects are out of scope; the divergence below already shows on
scalars). -/
inductive PVal : Type
  | str (s : String)
  | num (n : Int)
  deriving DecidableEq, Repr

/-- Translation of resolve (evaluator.py): symbols are looked up in
the environment (a failed find raises: none), other atoms stand for
themselves. -/
def resolveA (env : String → Option PVal) : Atom → Option PVal
  | .sym s => env s
  | .str s => some (.str s)
  | .num n => some (.num n)

/-- Sequenced evaluation of the argument expressions: any failing
argument fails the call (the list comprehension propagates the
exception). -/
def mapO (f : PTree → Option PVal) : List PTree → Option (List PVal)
  | [] => some []
  | t :: rest =>
    match f t, mapO f rest with
    | some v, some vs => some (v :: vs)
    | _, _ => none

/-- Translation of _evaluate/pevaluate (evaluator.py) on the modelled
fragment: an atom resolves, a node looks its head symbol up in the
operator registry (registry.py FUNCS, reached through the environment
in the source) and applies it to the evaluated arguments. The let
binding, keyword arguments, QARGS injection, the hist tree-passing and
the thread pool (futures are resolved before use, so concurrency does
not change the value) are outside the fragment; fuel bounds the
recursion, none models a raised exception. -/
def pevaluate (funcs : String → Option (List PVal → Option PVal))
    (env : String → Option PVal) : Nat → PTree → Option PVal
  | 0, _ => none
  | _ + 1, .atom a => resolveA env a
  | fuel + 1, .node items =>
    match items with
    | [] => none
    | head :: args =>
      match head with
      | .atom (.sym op) =>
        match funcs op with
        | none => none
        | some f => (mapO (pevaluate funcs env fuel) args).bind f
      | _ => none

/-- Characters a parsed symbol may contain. -/
def symOK (c : Char) : Bool := c ≠ ' ' && c ≠ '(' && c ≠ ')'

/-- Leading blanks skipped by the reader. -/
def skipSpaces (cs : List Char) : List Char := cs.dropWhile (fun c => c = ' ')

/-- Modelled psyl reader (an external collaborator) on the symbol
fragment, written as one fuel-structural function: mode false reads
one expression, mode true reads a ")"-terminated list of
expressions. -/
def parseP : Nat → Bool → List Char → Option ((PTree ⊕ List PTree) × List Char)
  | 0, _, _ => none
  | fuel + 1, false, cs =>
    match skipSpaces cs with
    | '(' :: cs1 =>
      match parseP fuel true cs1 with
      | some (.inr items, ')' :: rest) => some (.inl (.node items), rest)
      | _ => none
    | cs' =>
      match cs'.takeWhile symOK with
      | [] => none
      | tok => some (.inl (.atom (.sym (String.mk tok))), cs'.dropWhile symOK)
  | fuel + 1, true, cs =>
    match skipSpaces cs with
    | ')' :: rest => some (.inr [], ')' :: rest)
    | [] => some (.inr [], [])
    | cs' =>
      match parseP fuel false cs' with
      | some (.inl t, rest) =>
        match parseP fuel true rest with
        | some (.inr items, rest2) => some (.inr (t :: items), rest2)
        | _ => none
      | _ => none

/-- Modelled psyl parse: read one expression, allow trailing
blanks. -/
def parseT (s : String) : Option PTree :=
  match parseP (s.data.length + 1) false s.data with
  | some (.inl t, rest) => if rest.all (fun c => c = ' ') then some t else none
  | _ => none

/-- Head test of deserialize_tree (evaluator.py line 220): a string is
re-read as code when it starts with a parenthesis or a hash. -/
def startsParen (s : String) : Bool :=
  match s.data with
  | c :: _ => c = '(' || c = '#'
  | [] => false

/-- Argument handling of the cached __evaluate (evaluator.py lines
269-277): each sub-expression goes through serialize_tree, the
tree-type dispatch and deserialize_tree. A number is returned as is, a
symbol survives the round-trip and resolves, a node survives
(serialize then parse, the psyl round-trip), but a string atom
starting with a parenthesis or hash is re-read as code by
deserialize_tree and evaluated as a tree. -/
def argStep (rec : PTree → Option PVal) (env : String → Option PVal) :
    PTree → Option PVal
  | .atom (.num n) => some (.num n)
  | .atom (.sym s) => env s
  | .atom (.str s) =>
    if startsParen s then
      match parseT s with
      | some t => rec t
      | none => none
    else some (.str s)
  | .node l => rec (.node l)

/-- Translation of the recursive cached __evaluate (evaluator.py lines
228-316) on the modelled fragment: same call structure as _evaluate,
but every argument goes through the serialize/deserialize round-trip
of argStep. The memoization cache is not reified: it only collapses
repeated identical calls of this pure function. -/
def cache_evaluate (funcs : String → Option (List PVal → Option PVal))
    (env : String → Option PVal) : Nat → PTree → Option PVal
  | 0, _ => none
  | _ + 1, .atom a => resolveA env a
  | fuel + 1, .node items =>
    match items with
    | [] => none
    | head :: args =>
      match head with
      | .atom (.sym op) =>
        match funcs op with
        | none => none
        | some f => (mapO (argStep (cache_evaluate funcs env fuel) env) args).bind f
      | _ => none

/-- Translation of the entry of cache_pevaluate (evaluator.py lines
318-335): the whole tree is serialized with the full psyl serializer
and handed to __evaluate as a string. A node survives the round-trip
(the string starts with a parenthesis and is parsed back); a bare
symbol atom serializes to its name, which deserialize_tree leaves as a
plain string that then stands for itself; a string atom comes back
with its quotes; a number atom comes back as its decimal text. -/
def cache_pevaluate (funcs : String → Option (List PVal → Option PVal))
    (env : String → Option PVal) (fuel : Nat) : PTree → Option PVal
  | .node l => cache_evaluate funcs env fuel (.node l)
  | .atom (.sym s) => some (.str s)
  | .atom (.str s) => some (.str ("\"" ++ s ++ "\""))
  | .atom (.num n) => some (.str (String.mk (intChars n)))

/-- Operator registry of the divergence example: id1 returns its
single argument, b is a zero-argument operator returning 7. -/
def egFuncsC4 : String → Option (List PVal → Option PVal) :=
  fun n =>
    if n = "id1" then some (fun args =>
      match args with
      | [v] => some v
      | _ => none)
    else if n = "b" then some (fun args =>
      match args with
      | [] => some (.num 7)
      | _ => none)
    else none

/-- Environment of the divergence example (empty). -/
def egEnvC4 : String → Option PVal := fun _ => none

/-- The failing input: a call with one string argument whose text
looks like a formula. -/
def egTreeC4 : PTree := .node [.atom (.sym "id1"), .atom (.str "(b)")]

/-- Claim C4 refuted by the code: on the tree (id1 "(b)") the plain
evaluator passes the string argument through, while the cached
evaluator's deserialize_tree re-reads the string as code (it starts
with a parenthesis) and evaluates the operator b instead, so the two
evaluators return different values. -/
theorem claim4_cache_divergence :
    pevaluate egFuncsC4 egEnvC4 2 egTreeC4 = some (.str "(b)") ∧
    cache_pevaluate egFuncsC4 egEnvC4 2 egTreeC4 = some (.num 7) ∧
    (PVal.str "(b)" : PVal) ≠ PVal.num 7 := by
  refine ⟨by decide, by decide, by decide⟩

/-! Registration-time checks of timeseries.register_formula over the
generic trees. -/

/-- Python-level types the type checker of types.py distinguishes on
the modelled fragment. -/
inductive PyTy : Type
  | series
  | number
  | int
  | float
  | str
  deriving DecidableEq, Repr

/-- Declared signature of a registered operator: positional argument
types and return type (varargs, keywords and defaults are outside the
fragment). -/
structure OpSig where
  args : List PyTy
  ret : PyTy

/-- Type of an atom argument (symbols are outside the fragment and
fail). -/
def tyAtom : Atom → Option PyTy
  | .str _ => some .str
  | .num _ => some .int
  | .sym _ => none

/-- Translation of types.sametype restricted to the modelled types:
identity, with Number accepting the concrete number types. -/
def sameTy : PyTy → PyTy → Bool
  | .number, .int => true
  | .number, .float => true
  | a, b => decide (a = b)

/-- Positional argument check of types.typecheck: each argument must
match the declared type, sub-expressions through the recursive
check. -/
def argsStep (rec : PTree → Option PyTy) : List PTree → List PyTy → Bool
  | [], [] => true
  | t :: ts, ty :: tys =>
    (match t with
     | .atom a =>
       match tyAtom a with
       | some ta => sameTy ty ta
       | none => false
     | .node l =>
       match rec (.node l) with
       | some tr => sameTy ty tr
       | none => false) && argsStep rec ts tys
  | _, _ => false

/-- Translation of types.typecheck (types.py lines 293-373) on the
modelled fragment: the head symbol's signature is looked up, the
arguments are checked positionally, the declared return type comes
back; any failure (unknown operator, arity or argument mismatch, a
non-call tree) raises — none. The union narrowing and keyword handling
are outside the fragment; fuel bounds the recursion. -/
def typecheckP (sig : String → Option OpSig) : Nat → PTree → Option PyTy
  | 0, _ => none
  | fuel + 1, t =>
    match t with
    | .node (.atom (.sym op) :: args) =>
      match sig op with
      | none => none
      | some s =>
        if argsStep (typecheckP sig fuel) args s.args then some s.ret else none
    | _ => none

/-- Translation of timeseries.find_operators (tsio.py): the head
operator names of every call node, in traversal order. -/
def opsOf : Nat → PTree → List String
  | 0, _ => []
  | _ + 1, .atom _ => []
  | fuel + 1, .node items =>
    (match items with
     | .atom (.sym op) :: _ => [op]
     | _ => []) ++
    items.flatMap (fun t =>
      match t with
      | .node l => opsOf fuel (.node l)
      | .atom _ => [])

/-- Translation of timeseries.find_series (tsio.py) over the generic
trees: the names of the series call sites (the finder of the series
operator, registry.py not being under src/, is modelled from the spec
as yielding the name argument). -/
def findSeriesP : Nat → PTree → List String
  | 0, _ => []
  | _ + 1, .atom _ => []
  | fuel + 1, .node items =>
    (match items with
     | .atom (.sym "series") :: .atom (.str n) :: _ => [n]
     | _ => []) ++
    items.flatMap (fun t =>
      match t with
      | .node l => findSeriesP fuel (.node l)
      | .atom _ => [])

/-- The registration state: stored primaries, the formula registry
rows (canonical text and content hash; the remaining metadata is
outside the fragment) and the dependency edges. -/
structure RegDB where
  primaries : String → Bool
  registry : String → Option (String × String)
  edges : Edges

/-- Translation of timeseries.register_formula (tsio.py lines
184-250): fail-fast checks in source order — the name must not be a
stored primary, every operator must be registered, the inferred return
type must be Series, and (with reject_unknown) every referenced series
must exist — then, only with every check passed, the row is written
with the canonical text and content hash and the dependency edges are
replaced. The serializer and the expansion hash are the psyl/hashlib
collaborators, passed as functions; an error returns the message and
no state, the model of raising before any write (the timezone
compatibility check and the metadata fields are outside the
fragment). -/
def register_formulaP (sig : String → Option OpSig)
    (serial chash : PTree → String) (fuel : Nat) (db : RegDB)
    (name : String) (tree : PTree) (reject_unknown : Bool) :
    Except String RegDB :=
  if db.primaries name then .error "primary"
  else if (opsOf fuel tree).filter (fun op => (sig op).isNone) ≠ [] then
    .error "operators"
  else if typecheckP sig fuel tree ≠ some PyTy.series then .error "typecheck"
  else if reject_unknown ∧ (findSeriesP fuel tree).filter
      (fun s => ¬ (db.primaries s ∨ (db.registry s).isSome)) ≠ [] then
    .error "unknown series"
  else .ok ⟨db.primaries,
    fun n => if n = name then some (serial tree, chash tree) else db.registry n,
    db.edges.filter (fun e => e.1 ≠ name) ++
      (findSeriesP fuel tree).filterMap (fun dep =>
        if (db.registry dep).isSome then some (name, dep) else none)⟩

/-- Claim C7: registration raises, with no write, when the name is a
stored primary, when an operator is unregistered, when the inferred
return type is not Series (also when type checking itself fails), or —
with reject_unknown — when a referenced series is unknown; and a
successful registration persists exactly the canonical text, the
content hash and the recomputed dependency edges for the name, leaving
the primaries and every other row unchanged. -/
theorem claim7_register_formula (sig : String → Option OpSig)
    (serial chash : PTree → String) (fuel : Nat) (db : RegDB)
    (name : String) (tree : PTree) (ru : Bool) :
    (db.primaries name = true →
      register_formulaP sig serial chash fuel db name tree ru = .error "primary") ∧
    ((∃ op ∈ opsOf fuel tree, sig op = none) →
      ∃ msg, register_formulaP sig serial chash fuel db name tree ru =
        .error msg) ∧
    ((∀ rt, typecheckP sig fuel tree = some rt → rt ≠ .series) →
      ∃ msg, register_formulaP sig serial chash fuel db name tree ru =
        .error msg) ∧
    ((ru = true ∧ ∃ s ∈ findSeriesP fuel tree,
        db.primaries s = false ∧ db.registry s = none) →
      ∃ msg, register_formulaP sig serial chash fuel db name tree ru =
        .error msg) ∧
    (∀ db', register_formulaP sig serial chash fuel db name tree ru = .ok db' →
      db'.registry name = some (serial tree, chash tree) ∧
      db'.primaries = db.primaries ∧
      (∀ n, n ≠ name → db'.registry n = db.registry n) ∧
      db'.edges = db.edges.filter (fun e => e.1 ≠ name) ++
        (findSeriesP fuel tree).filterMap (fun dep =>
          if (db.registry dep).isSome then some (name, dep) else none)) := by
  refine ⟨?_, ?_, ?_, ?_, ?_⟩
  · intro h1
    unfold register_formulaP
    rw [if_pos h1]
  · rintro ⟨op, hop, hsig⟩
    unfold register_formulaP
    by_cases h1 : db.primaries name = true
    · rw [if_pos h1]
      exact ⟨_, rfl⟩
    · rw [Bool.not_eq_true] at h1
      rw [if_neg (by rw [h1]; exact Bool.false_ne_true)]
      have hfil : (opsOf fuel tree).filter (fun op => (sig op).isNone) ≠ [] := by
        apply List.ne_nil_of_mem
        rw [List.mem_filter]
        exact ⟨hop, by rw [hsig]; rfl⟩
      rw [if_pos hfil]
      exact ⟨_, rfl⟩
  · intro hrt
    unfold register_formulaP
    by_cases h1 : db.primaries name = true
    · rw [if_pos h1]
      exact ⟨_, rfl⟩
    · rw [Bool.not_eq_true] at h1
      rw [if_neg (by rw [h1]; exact Bool.false_ne_true)]
      by_cases h2 : (opsOf fuel tree).filter (fun op => (sig op).isNone) ≠ []
      · rw [if_pos h2]
        exact ⟨_, rfl⟩
      · rw [if_neg h2]
        by_cases h3 : typecheckP sig fuel tree ≠ some PyTy.series
        · rw [if_pos h3]
          exact ⟨_, rfl⟩
        · exfalso
          rw [not_not] at h3
          exact hrt PyTy.series h3 rfl
  · rintro ⟨hru, s, hs, hp, hr⟩
    unfold register_formulaP
    by_cases h1 : db.primaries name = true
    · rw [if_pos h1]
      exact ⟨_, rfl⟩
    · rw [Bool.not_eq_true] at h1
      rw [if_neg (by rw [h1]; exact Bool.false_ne_true)]
      by_cases h2 : (opsOf fuel tree).filter (fun op => (sig op).isNone) ≠ []
      · rw [if_pos h2]
        exact ⟨_, rfl⟩
      · rw [if_neg h2]
        by_cases h3 : typecheckP sig fuel tree ≠ some PyTy.series
        · rw [if_pos h3]
          exact ⟨_, rfl⟩
        · rw [if_neg h3]
          have hfil : (findSeriesP fuel tree).filter
              (fun s => ¬ (db.primaries s ∨ (db.registry s).isSome)) ≠ [] := by
            apply List.ne_nil_of_mem
            rw [List.mem_filter]
            refine ⟨hs, ?_⟩
            rw [decide_eq_true_eq, hp, hr]
            simp
          rw [if_pos ⟨hru, hfil⟩]
          exact ⟨_, rfl⟩
  · intro db' h
    unfold register_formulaP at h
    by_cases h1 : db.primaries name = true
    · rw [if_pos h1] at h
      exact Except.noConfusion h
    · rw [Bool.not_eq_true] at h1
      rw [if_neg (by rw [h1]; exact Bool.false_ne_true)] at h
      by_cases h2 : (opsOf fuel tree).filter (fun op => (sig op).isNone) ≠ []
      · rw [if_pos h2] at h
        exact Except.noConfusion h
      · rw [if_neg h2] at h
        by_cases h3 : typecheckP sig fuel tree ≠ some PyTy.series
        · rw [if_pos h3] at h
          exact Except.noConfusion h
        · rw [if_neg h3] at h
          by_cases h4 : ru = true ∧ (findSeriesP fuel tree).filter
              (fun s => ¬ (db.primaries s ∨ (db.registry s).isSome)) ≠ []
          · rw [if_pos h4] at h
            exact Except.noConfusion h
          · rw [if_neg h4] at h
            injection h with h5
            subst h5
            refine ⟨?_, rfl, ?_, rfl⟩
            · show (if name = name then some (serial tree, chash tree)
                else db.registry name) = some (serial tree, chash tree)
              rw [if_pos rfl]
            · intro n hn
              show (if n = name then some (serial tree, chash tree)
                else db.registry n) = db.registry n
              rw [if_neg hn]

/-- Operator signatures of the claim C7 witness: series takes a name
and returns a Series, add takes two Series and returns one. -/
def egSigC7 : String → Option OpSig :=
  fun n =>
    if n = "series" then some ⟨[.str], .series⟩
    else if n = "add" then some ⟨[.series, .series], .series⟩
    else none

/-- Registration state of the claim C7 witness: one stored primary
x, no formulas, no edges. -/
def egDbC7 : RegDB := ⟨fun n => n = "x", fun _ => none, []⟩

/-- The registered definition of the claim C7 witness:
(add (series "x") (series "y")). -/
def egTreeC7 : PTree :=
  .node [.atom (.sym "add"),
    .node [.atom (.sym "series"), .atom (.str "x")],
    .node [.atom (.sym "series"), .atom (.str "y")]]

/-- Witness for claim C7 at a concrete registration call. -/
theorem claim7_register_formula_witness :
    (egDbC7.primaries "f" = true →
      register_formulaP egSigC7 (fun _ => "t") (fun _ => "h") 3 egDbC7 "f"
        egTreeC7 true = .error "primary") ∧
    ((∃ op ∈ opsOf 3 egTreeC7, egSigC7 op = none) →
      ∃ msg, register_formulaP egSigC7 (fun _ => "t") (fun _ => "h") 3 egDbC7 "f"
        egTreeC7 true = .error msg) ∧
    ((∀ rt, typecheckP egSigC7 3 egTreeC7 = some rt → rt ≠ .series) →
      ∃ msg, register_formulaP egSigC7 (fun _ => "t") (fun _ => "h") 3 egDbC7 "f"
        egTreeC7 true = .error msg) ∧
    ((true = true ∧ ∃ s ∈ findSeriesP 3 egTreeC7,
        egDbC7.primaries s = false ∧ egDbC7.registry s = none) →
      ∃ msg, register_formulaP egSigC7 (fun _ => "t") (fun _ => "h") 3 egDbC7 "f"
        egTreeC7 true = .error msg) ∧
    (∀ db', register_formulaP egSigC7 (fun _ => "t") (fun _ => "h") 3 egDbC7 "f"
        egTreeC7 true = .ok db' →
      db'.registry "f" = some ("t", "h") ∧
      db'.primaries = egDbC7.primaries ∧
      (∀ n, n ≠ "f" → db'.registry n = egDbC7.registry n) ∧
      db'.edges = egDbC7.edges.filter (fun e => e.1 ≠ "f") ++
        (findSeriesP 3 egTreeC7).filterMap (fun dep =>
          if (egDbC7.registry dep).isSome then some ("f", dep) else none)) :=
  claim7_register_formula egSigC7 (fun _ => "t") (fun _ => "h") 3 egDbC7 "f"
    egTreeC7 true

end TshF
